import Mathlib

/-!
Verification of the yk meta-tracing core: the TIR trace builder
(`yktrace/src/tir.rs`) and the SIR interpreter (`ykbh/src/lib.rs`),
over a shallow embedding of the Rust sources.

Conventions of the embedding:
* Rust `Vec` used as a stack (push/pop at the end, `last()` as top) is
  embedded as a Lean `List` whose head is the top of the stack.
* Machine integers (`u32`, `u128`, `usize`) are embedded as `Nat`; the
  operations the claims touch never overflow their Rust types.
* A Rust panic (`panic!`, `unwrap`, `todo!`, `unreachable!`, out-of-bounds
  indexing, and `debug_assert!` in a debug build) is embedded as `none` /
  a dedicated `panicked` result; recoverable `Result::Err` values keep a
  distinct constructor so the two failure tiers stay distinguishable.
-/

namespace Yk

/-! ## IR data model (`ykpack/src/types.rs`) -/

/-- A SIR/TIR local variable index (`Local(pub u32)` in `ykpack`). -/
structure Local where
  idx : Nat
deriving DecidableEq, Repr

/-- A type reference: crate hash and index into the crate's type table. -/
abbrev TypeId := Nat × Nat

/-- The declaration of a local variable (its type reference). -/
structure LocalDecl where
  ty : TypeId
deriving DecidableEq, Repr

/-- A place projection (`Projection` in `ykpack`). -/
inductive Projection where
  | Field (idx : Nat)
  | Deref
  | Unimplemented (s : String)
deriving DecidableEq, Repr

/-- A place: a local plus a projection path (`Place` in `ykpack`). -/
structure Place where
  «local» : Local
  projection : List Projection
deriving DecidableEq, Repr

/-- The rmp-serde friendly 128-bit unsigned value (`SerU128`). -/
structure SerU128 where
  hi : Nat
  lo : Nat
deriving DecidableEq, Repr

/-- `SerU128::val`: `(hi as u128) << 64 | lo`. -/
def SerU128.val (s : SerU128) : Nat :=
  s.hi <<< 64 ||| s.lo

/-- Unsigned integer constants (`UnsignedInt` in `ykpack`). -/
inductive UnsignedInt where
  | Usize (v : Nat)
  | U8 (v : Nat)
  | U16 (v : Nat)
  | U32 (v : Nat)
  | U64 (v : Nat)
  | U128 (v : SerU128)
deriving DecidableEq, Repr

/-- Signed integer constants (`SignedInt` in `ykpack`). -/
inductive SignedInt where
  | Isize (v : Int)
  | I8 (v : Int)
  | I16 (v : Int)
  | I32 (v : Int)
  | I64 (v : Int)
  | I128 (v : Int)
deriving DecidableEq, Repr

/-- An integer constant (`ConstantInt` in `ykpack`). -/
inductive ConstantInt where
  | UnsignedInt (u : UnsignedInt)
  | SignedInt (s : SignedInt)
deriving DecidableEq, Repr

/-- A constant (`Constant` in `ykpack`). -/
inductive Constant where
  | Int (ci : ConstantInt)
  | Bool (b : Bool)
  | Unimplemented (s : String)
deriving DecidableEq, Repr

/-- A call target (`CallOperand` in `ykpack`). -/
inductive CallOperand where
  | Fn (sym : String)
  | Unknown
deriving DecidableEq, Repr

/-- An operand (`Operand` in `ykpack`). -/
inductive Operand where
  | Place (p : Place)
  | Constant (c : Constant)
deriving DecidableEq, Repr

/-- Binary operations (`BinOp` in `ykpack`). -/
inductive BinOp where
  | Add | Sub | Mul | Div | Rem
  | BitXor | BitAnd | BitOr | Shl | Shr
  | Eq | Lt | Le | Ne | Ge | Gt
  | Offset
deriving DecidableEq, Repr

/-- The right-hand side of an assignment (`Rvalue` in `ykpack`). -/
inductive Rvalue where
  | Use (op : Operand)
  | BinaryOp (op : BinOp) (o1 o2 : Operand)
  | CheckedBinaryOp (op : BinOp) (o1 o2 : Operand)
  | Ref (p : Place)
  | Unimplemented (s : String)
deriving DecidableEq, Repr

/-- A SIR/TIR statement. `yktrace/src/tir.rs` compiles against a `ykpack`
revision that also has a `StorageLive` variant (it is matched in the
statement lowering and in the boundary trimming); the copy of
`ykpack/src/types.rs` in the repository predates it, so that variant is
reconstructed here from its uses. All other variants follow
`ykpack/src/types.rs`. -/
inductive Statement where
  | Nop
  | Assign (p : Place) (r : Rvalue)
  | Enter (op : CallOperand) (args : List Operand) (dest : Option Place) (off : Nat)
  | Leave
  | StorageLive (l : Local)
  | StorageDead (l : Local)
  | Call (op : CallOperand) (args : List Operand) (dest : Option Place)
  | Unimplemented (s : String)
deriving DecidableEq, Repr

/-- A basic block terminator (`Terminator` in `ykpack`). -/
inductive Terminator where
  | Goto (bb : Nat)
  | SwitchInt (discr : Place) (values : List SerU128) (target_bbs : List Nat)
      (otherwise_bb : Nat)
  | Return
  | Unreachable
  | Drop (location : Place) (target_bb : Nat)
  | DropAndReplace (location : Place) (target_bb : Nat) (value : Operand)
  | Call (operand : CallOperand) (args : List Operand)
      (destination : Option (Place × Nat))
  | Assert (cond : Place) (expected : Bool) (target_bb : Nat)
  | Unimplemented (s : String)
deriving DecidableEq, Repr

/-- A basic block (`BasicBlock` in `ykpack`). -/
structure BasicBlock where
  stmts : List Statement
  term : Terminator
deriving DecidableEq, Repr

/-- A SIR body (`Body` in `ykpack`). -/
structure Body where
  symbol_name : String
  blocks : List BasicBlock
  flags : Nat
  trace_inputs_local : Option Local
  local_decls : List LocalDecl
deriving DecidableEq, Repr

/-! ## TIR guards and operations (`yktrace/src/tir.rs`) -/

/-- The requirement a guard places on its value (`GuardKind`). -/
inductive GuardKind where
  | Integer (v : Nat)
  | OtherInteger (vs : List Nat)
  | Boolean (b : Bool)
deriving DecidableEq, Repr

/-- A trace guard (`Guard` in `tir.rs`). -/
structure Guard where
  val : Place
  kind : GuardKind
deriving DecidableEq, Repr

/-- A TIR operation (`TirOp`). -/
inductive TirOp where
  | Statement (s : Statement)
  | Guard (g : Guard)
deriving DecidableEq, Repr

/-- One location of a SIR trace: the symbol of the body and the index of
the executed basic block. The `sir` module that declares this type is not
part of the sources; the shape is fixed by its uses in `tir.rs`
(`loc.symbol_name`, `loc.bb_idx`) and by the spec's
"(symbol, basic-block-index) pairs". -/
structure SirLoc where
  symbol_name : String
  bb_idx : Nat
deriving DecidableEq, Repr

/-- Reasons that a trace can be invalidated (`yktrace/src/errors.rs`). -/
inductive InvalidTraceError where
  | NoSir (sym : String)
  | InternalError
deriving DecidableEq, Repr

/-! ## The variable renamer (`VarRenamer` in `tir.rs`)

`used_decls` is a `HashMap<Local, LocalDecl>` in Rust; it is embedded as an
association list with `insert` replacing an existing binding of the key. -/

/-- Insert with replacement, the embedding of `HashMap::insert`. -/
def insertDecl (m : List (Local × LocalDecl)) (l : Local) (d : LocalDecl) :
    List (Local × LocalDecl) :=
  (l, d) :: m.filter (fun p => p.1 ≠ l)

/-- Membership of a key in the used-locals table. -/
def keyIn (l : Local) (m : List (Local × LocalDecl)) : Bool :=
  m.any (fun p => p.1 = l)

/-- The renaming state (`VarRenamer`). The `stack` and `returns` lists have
their head as the top of the corresponding Rust `Vec` stack. -/
structure VarRenamer where
  stack : List Nat
  offset : Nat
  acc : Option Nat
  returns : List Place
  used_decls : List (Local × LocalDecl)
deriving DecidableEq, Repr

namespace VarRenamer

/-- `VarRenamer::new`. -/
def new : VarRenamer :=
  { stack := [0], offset := 0, acc := none, returns := [], used_decls := [] }

/-- `VarRenamer::used_decl`. -/
def used_decl (r : VarRenamer) (l : Local) (d : LocalDecl) : VarRenamer :=
  { r with used_decls := insertDecl r.used_decls l d }

/-- `VarRenamer::done`. -/
def done (r : VarRenamer) : List (Local × LocalDecl) :=
  r.used_decls

/-- `VarRenamer::init_acc`: set the accumulator if it is still unset. -/
def init_acc (r : VarRenamer) (num_locals : Nat) : VarRenamer :=
  if r.acc = none then { r with acc := some num_locals } else r

/-- `VarRenamer::enter`: offset becomes the accumulator, which is pushed and
then advanced by the callee's local count; the destination is pushed.
`acc.unwrap()` panics when the accumulator was never initialised. -/
def enter (r : VarRenamer) (num_locals : Nat) (dest : Place) : Option VarRenamer :=
  match r.acc with
  | none => none
  | some a =>
    some { stack := a :: r.stack, offset := a, acc := some (a + num_locals),
           returns := dest :: r.returns, used_decls := r.used_decls }

/-- `VarRenamer::leave`: pop the offset and return-place stacks; restoring
from an emptied stack is the fatal "Unbalanced enter/leave" panic. -/
def leave (r : VarRenamer) : Option VarRenamer :=
  match r.stack with
  | [] => none
  | _ :: rest =>
    match rest with
    | [] => none
    | v :: _ =>
      some { stack := rest, offset := v, acc := r.acc,
             returns := r.returns.tail, used_decls := r.used_decls }

/-- `VarRenamer::rename_local`: shift by the current offset and record the
declaration; `body.local_decls[local]` panics when out of bounds. -/
def rename_local (r : VarRenamer) (l : Local) (body : Body) :
    Option (Local × VarRenamer) :=
  match body.local_decls.get? l.idx with
  | none => none
  | some d =>
    let renamed : Local := ⟨l.idx + r.offset⟩
    some (renamed, r.used_decl renamed d)

/-- `VarRenamer::rename_place`: local 0 is substituted by the top of the
return-place stack (panicking when it is empty); any other local is
renamed in place. -/
def rename_place (r : VarRenamer) (p : Place) (body : Body) :
    Option (Place × VarRenamer) :=
  if p.«local» = ⟨0⟩ then
    match r.returns with
    | v :: _ => some (v, r)
    | [] => none
  else
    match r.rename_local p.«local» body with
    | none => none
    | some (nl, r') => some ({ p with «local» := nl }, r')

/-- `VarRenamer::rename_operand`. -/
def rename_operand (r : VarRenamer) (o : Operand) (body : Body) :
    Option (Operand × VarRenamer) :=
  match o with
  | .Place p =>
    match r.rename_place p body with
    | none => none
    | some (np, r') => some (.Place np, r')
  | .Constant _ => some (o, r)

/-- `VarRenamer::rename_rvalue`. -/
def rename_rvalue (r : VarRenamer) (rv : Rvalue) (body : Body) :
    Option (Rvalue × VarRenamer) :=
  match rv with
  | .Use op =>
    match r.rename_operand op body with
    | none => none
    | some (nop, r') => some (.Use nop, r')
  | .BinaryOp bop o1 o2 =>
    match r.rename_operand o1 body with
    | none => none
    | some (n1, r1) =>
      match r1.rename_operand o2 body with
      | none => none
      | some (n2, r2) => some (.BinaryOp bop n1 n2, r2)
  | .CheckedBinaryOp bop o1 o2 =>
    match r.rename_operand o1 body with
    | none => none
    | some (n1, r1) =>
      match r1.rename_operand o2 body with
      | none => none
      | some (n2, r2) => some (.CheckedBinaryOp bop n1 n2, r2)
  | .Ref p =>
    match r.rename_place p body with
    | none => none
    | some (np, r') => some (.Ref np, r')
  | .Unimplemented s => some (.Unimplemented s, r)

/-- `VarRenamer::rename_args`. -/
def rename_args (r : VarRenamer) (args : List Operand) (body : Body) :
    Option (List Operand × VarRenamer) :=
  match args with
  | [] => some ([], r)
  | a :: rest =>
    match r.rename_operand a body with
    | none => none
    | some (na, r') =>
      match r'.rename_args rest body with
      | none => none
      | some (nrest, r'') => some (na :: nrest, r'')

end VarRenamer

/-! ## Trace lowering (`TirTrace::new` in `tir.rs`)

The construction is split into the per-statement lowering, the terminator
handling, the guard derivation, the per-location step, the main loop and
the boundary trimming, exactly following the structure of the Rust loop
body. -/

/-- The TIR trace value (`TirTrace`). -/
structure TirTrace where
  ops : List TirOp
  trace_inputs_local : Option Local
  local_decls : List (Local × LocalDecl)
deriving DecidableEq, Repr

/-- The three-way outcome of running `TirTrace::new`: a trace, the
recoverable `InvalidTraceError`, or a panic. -/
inductive BRes (α : Type) where
  | ok (a : α)
  | err (e : InvalidTraceError)
  | panicked
deriving DecidableEq, Repr

/-- Lowering of one block statement (the `match stmt` in `TirTrace::new`);
`Call`, `Enter` and `Leave` cannot appear in SIR (`unreachable!()`). -/
def lowerStmt (r : VarRenamer) (body : Body) (stmt : Statement) :
    Option (Statement × VarRenamer) :=
  match stmt with
  | .StorageLive l =>
    match r.rename_local l body with
    | none => none
    | some (nl, r') => some (.StorageLive nl, r')
  | .StorageDead l =>
    match r.rename_local l body with
    | none => none
    | some (nl, r') => some (.StorageDead nl, r')
  | .Assign p rv =>
    match r.rename_place p body with
    | none => none
    | some (np, r1) =>
      match r1.rename_rvalue rv body with
      | none => none
      | some (nrv, r2) => some (.Assign np nrv, r2)
  | .Nop => some (.Nop, r)
  | .Unimplemented s => some (.Unimplemented s, r)
  | .Call _ _ _ => none
  | .Enter _ _ _ _ => none
  | .Leave => none

/-- Lowering of all statements of a block, threading the renamer. -/
def lowerStmts (r : VarRenamer) (body : Body) :
    List Statement → Option (List Statement × VarRenamer)
  | [] => some ([], r)
  | s :: rest =>
    match lowerStmt r body s with
    | none => none
    | some (s', r') =>
      match lowerStmts r' body rest with
      | none => none
      | some (rest', r'') => some (s' :: rest', r'')

/-- The loop that gives the callee's arguments TIR local declarations:
`for lidx in 0..newargs.len()` with `lidx + 1`, reading
`callbody.local_decls[lidx]` (panicking when absent) and recording
`Local(offset + lidx)`. -/
def declArgs (r : VarRenamer) (callbody : Body) : Nat → Option VarRenamer
  | 0 => some r
  | n + 1 =>
    match declArgs r callbody n with
    | none => none
    | some r' =>
      let lidx := n + 1
      match callbody.local_decls.get? lidx with
      | none => none
      | some d => some (r'.used_decl ⟨r'.offset + lidx⟩ d)

/-- Handling of `Call` and `Return` terminators in `TirTrace::new`: the
extra `Enter`/`Call`/`Leave` operations and the renamer-scope updates. -/
def lowerTerm (r : VarRenamer) (sir : String → Option Body) (body : Body)
    (term : Terminator) : Option (List TirOp × VarRenamer) :=
  match term with
  | .Call op args dest =>
    match dest with
    | none => none
    | some (retp, _) =>
      match r.rename_place retp body with
      | none => none
      | some (ret_val, r1) =>
        match op with
        | .Unknown => none
        | .Fn sym =>
          match r1.rename_args args body with
          | none => none
          | some (newargs, r2) =>
            match sir sym with
            | some callbody =>
              match r2.enter callbody.local_decls.length ret_val with
              | none => none
              | some r3 =>
                match declArgs r3 callbody newargs.length with
                | none => none
                | some r4 =>
                  some ([.Statement (.Enter (.Fn sym) newargs (some ret_val) r4.offset)], r4)
            | none =>
              some ([.Statement (.Call (.Fn sym) newargs (some ret_val))], r2)
  | .Return =>
    match r.leave with
    | none => none
    | some r' => some ([.Statement .Leave], r')
  | _ => some ([], r)

/-- Derivation of the optional guard from a block terminator, peeking at the
next trace location for `SwitchInt`. The outer `Option` is the panic level:
traced `Unreachable` code, peeking past the end of the trace, and a failed
`debug_assert!` are fatal. -/
def deriveGuard (term : Terminator) (peeked : Option SirLoc) :
    Option (Option Guard) :=
  match term with
  | .Goto _ => some none
  | .Return => some none
  | .Drop _ _ => some none
  | .DropAndReplace _ _ _ => some none
  | .Call _ _ _ => some none
  | .Unimplemented _ => some none
  | .Unreachable => none
  | .SwitchInt discr values target_bbs otherwise_bb =>
    match peeked with
    | none => none
    | some nloc =>
      let next_blk := nloc.bb_idx
      match target_bbs.findIdx? (fun e => e = next_blk) with
      | some idx =>
        match values.get? idx with
        | none => none
        | some v => some (some { val := discr, kind := .Integer v.val })
      | none =>
        if next_blk = otherwise_bb then
          some (some { val := discr, kind := .OtherInteger (values.map SerU128.val) })
        else none
  | .Assert cond expected _ =>
    some (some { val := cond, kind := .Boolean expected })

/-- The loop state of `TirTrace::new`: accumulated operations, the renamer
and the last body's trace-inputs local. -/
structure LoopState where
  ops : List TirOp
  rnm : VarRenamer
  til : Option Local
deriving DecidableEq, Repr

/-- One iteration of the `while let Some(loc)` loop of `TirTrace::new`. -/
def processLoc (sir : String → Option Body) (st : LoopState) (loc : SirLoc)
    (peeked : Option SirLoc) : BRes LoopState :=
  match sir loc.symbol_name with
  | none => .err (.NoSir loc.symbol_name)
  | some body =>
    let til := body.trace_inputs_local
    let r0 := st.rnm.init_acc body.local_decls.length
    match body.blocks.get? loc.bb_idx with
    | none => .panicked
    | some blk =>
      match lowerStmts r0 body blk.stmts with
      | none => .panicked
      | some (stmtOps, r1) =>
        match lowerTerm r1 sir body blk.term with
        | none => .panicked
        | some (termOps, r2) =>
          match deriveGuard blk.term peeked with
          | none => .panicked
          | some g =>
            .ok { ops := st.ops ++ stmtOps.map TirOp.Statement ++ termOps ++
                    (match g with | some gd => [TirOp.Guard gd] | none => []),
                  rnm := r2, til := til }

/-- The main loop of `TirTrace::new` over the remaining locations; the
peeked element is the head of the rest of the list. -/
def buildOps (sir : String → Option Body) (st : LoopState) :
    List SirLoc → BRes LoopState
  | [] => .ok st
  | loc :: rest =>
    match processLoc sir st loc rest.head? with
    | .err e => .err e
    | .panicked => .panicked
    | .ok st' => buildOps sir st' rest

/-- Containment of `needle` in a character list, the embedding of Rust's
`str::contains` for plain string patterns. -/
def charsContain (needle : List Char) : List Char → Bool
  | [] => needle.isEmpty
  | c :: rest => needle.isPrefixOf (c :: rest) || charsContain needle rest

/-- Boundary trimming: pop the `stop_tracing` `Enter`, an `Assign`, an
`Assign` of the constant `false` and three `StorageLive` markers from the
tail, then remove one `StorageDead` from the head; every mismatch is a
panic. The `debug_assert!` that the entered symbol contains
"stop_tracing" is kept (debug-build semantics). -/
def trimOps (ops : List TirOp) : Option (List TirOp) :=
  match ops.reverse with
  | .Statement (.Enter (.Fn s) _ _ _) ::
    .Statement (.Assign _ _) ::
    .Statement (.Assign _ (.Use (.Constant (.Bool false)))) ::
    .Statement (.StorageLive _) ::
    .Statement (.StorageLive _) ::
    .Statement (.StorageLive _) :: rest =>
    if charsContain ("stop_tracing".data) s.data then
      match rest.reverse with
      | .Statement (.StorageDead _) :: rest2 => some rest2
      | _ => none
    else none
  | _ => none

/-- `TirTrace::new`: run the main loop over the whole location sequence,
then trim the trace boundary and package the result. -/
def TirTrace.new (sir : String → Option Body) (trace : List SirLoc) :
    BRes TirTrace :=
  match buildOps sir { ops := [], rnm := VarRenamer.new, til := none } trace with
  | .err e => .err e
  | .panicked => .panicked
  | .ok st =>
    match trimOps st.ops with
    | none => .panicked
    | some ops' =>
      .ok { ops := ops', trace_inputs_local := st.til,
            local_decls := st.rnm.done }

/-- `TirTrace::len`. -/
def TirTrace.len (t : TirTrace) : Nat :=
  t.ops.length

/-- The result of `TirTrace::op` under debug-build semantics. `val` is a
successful read; `panicOverflow` is the debug panic of the underflowing
`self.ops.len() - 1` on an empty trace; `panicAssertFail` is the
"bogus trace index" debug assertion; `ub` marks the out-of-range
`get_unchecked` that a release build would reach. -/
inductive OpResult where
  | val (op : TirOp)
  | panicOverflow
  | panicAssertFail
  | ub
deriving DecidableEq, Repr

/-- `TirTrace::op`: `debug_assert!(idx <= self.ops.len() - 1)` followed by
`get_unchecked(idx)`. -/
def TirTrace.op (t : TirTrace) (idx : Nat) : OpResult :=
  if t.ops.length = 0 then .panicOverflow
  else if idx ≤ t.ops.length - 1 then
    match t.ops.get? idx with
    | some o => .val o
    | none => .ub
  else .panicAssertFail

/-! ## Type layout (`Ty` in `ykpack/src/types.rs`) -/

/-- Signed integer type tags. -/
inductive SignedIntTy where
  | Isize | I8 | I16 | I32 | I64 | I128
deriving DecidableEq, Repr

/-- Unsigned integer type tags. -/
inductive UnsignedIntTy where
  | Usize | U8 | U16 | U32 | U64 | U128
deriving DecidableEq, Repr

/-- Size and alignment of an aggregate (stored as `i32` for dynasm). -/
structure SizeAndAlign where
  align : Int
  size : Int
deriving DecidableEq, Repr

/-- Field offsets and types of an aggregate. -/
structure Fields where
  offsets : List Nat
  tys : List TypeId
deriving DecidableEq, Repr

/-- A struct type. -/
structure StructTy where
  fields : Fields
  size_align : SizeAndAlign
deriving DecidableEq, Repr

/-- A tuple type. -/
structure TupleTy where
  fields : Fields
  size_align : SizeAndAlign
deriving DecidableEq, Repr

/-- The type of a local variable (`Ty`). -/
inductive Ty where
  | SignedInt (si : SignedIntTy)
  | UnsignedInt (ui : UnsignedIntTy)
  | Struct (sty : StructTy)
  | Tuple (tty : TupleTy)
  | Ref (t : TypeId)
  | Bool
  | Unimplemented (s : String)
deriving DecidableEq, Repr

/-- `Ty::size` in bytes on the x86-64 target (`usize`/`isize`/references
are 8 bytes, `bool` is 1). The `Unimplemented` arm is `todo!()`, and the
`u64::try_from` of a negative aggregate `i32` size panics: both are
`none`. -/
def Ty.size : Ty → Option Nat
  | .UnsignedInt ui =>
    some (match ui with
      | .U8 => 1 | .U16 => 2 | .U32 => 4 | .U64 => 8 | .Usize => 8 | .U128 => 16)
  | .SignedInt si =>
    some (match si with
      | .I8 => 1 | .I16 => 2 | .I32 => 4 | .I64 => 8 | .Isize => 8 | .I128 => 16)
  | .Struct sty => if sty.size_align.size < 0 then none else some sty.size_align.size.toNat
  | .Tuple tty => if tty.size_align.size < 0 then none else some tty.size_align.size.toNat
  | .Ref _ => some 8
  | .Bool => some 1
  | .Unimplemented _ => none

namespace bh

/-! ## The SIR interpreter (`ykbh/src/lib.rs`)

`ykbh` compiles against a later `ykpack` revision than the copy under
`ykpack/src/types.rs`: that revision's `IPlace`, its statement and
terminator kinds and the extra `Body` fields (`layout`, `offsets`, the
`TRACE_DEBUG` flag) are not in the sources. They are modelled from the
spec's data model ("IPlace: either Val (a Local plus a byte offset plus
type), Indirect (a Local/offset that itself holds a pointer, plus an
additional byte offset to apply after dereferencing, plus type), or Const")
and from their uses in `ykbh/src/lib.rs`; every function below is the
embedding of a function that is present in `ykbh/src/lib.rs`.

Memory is a byte map `Nat → Nat`; pointers are 8-byte little-endian
values, matching the x86-64 target the crate assumes. -/

/-- Byte-addressed memory. -/
abbrev Mem := Nat → Nat

/-- Read one little-endian pointer-width (8 byte) value, the embedding of
`std::ptr::read::<*mut u8>`. -/
def readPtr (m : Mem) (a : Nat) : Nat :=
  (List.range 8).foldr (fun i acc => acc * 256 + m (a + i)) 0

/-- Write one little-endian pointer-width value, the embedding of
`std::ptr::write::<*mut u8>`. -/
def writePtr (m : Mem) (a v : Nat) : Mem :=
  fun x => if a ≤ x ∧ x < a + 8 then v / 256 ^ (x - a) % 256 else m x

/-- Copy `n` bytes from `src` to `dst`, the embedding of `std::ptr::copy`
(memmove semantics: all source bytes are read before any write lands). -/
def copyBytes (m : Mem) (src dst n : Nat) : Mem :=
  fun x => if dst ≤ x ∧ x < dst + n then m (src + (x - dst)) else m x

/-- Write one byte. -/
def writeByte (m : Mem) (a v : Nat) : Mem :=
  fun x => if x = a then v else m x

/-- Modelled from the spec: the `Local`/offset pair of an `IPlace::Indirect`
that holds the pointer (the `ptr` field, with `ptr.local` and `ptr.off`
used in `ykbh`). -/
structure Ptr where
  «local» : Local
  off : Nat
deriving DecidableEq, Repr

/-- Modelled from the spec: the interpreter-resolved place `IPlace` of the
`ykpack` revision `ykbh` uses — `Val`, `Indirect` and `Const` as the spec
lists them, plus the `Unimplemented` placeholder hit by the catch-all
`todo!()`/`unreachable!()` arms of `ykbh`. -/
inductive IPlace where
  | Val («local» : Local) (off : Nat) (ty : TypeId)
  | Indirect (ptr : Ptr) (off : Nat) (ty : TypeId)
  | Const (val : Constant) (ty : TypeId)
  | Unimplemented (s : String)
deriving DecidableEq, Repr

/-- `IPlace::ty`, used for the copy sizes. -/
def IPlace.ty : IPlace → TypeId
  | .Val _ _ t => t
  | .Indirect _ _ t => t
  | .Const _ t => t
  | .Unimplemented _ => (0, 0)

/-- A stack frame: the base address of its locals allocation and the
per-local byte offsets (`StackFrame`; the `layout` field only serves the
deallocation and is dropped here). -/
structure Frame where
  base : Nat
  offsets : List Nat
deriving DecidableEq, Repr

/-- `StackFrame::local_ptr`: `locals.add(offsets[local])`; the indexing
panics when the local has no offset. -/
def Frame.local_ptr (f : Frame) (l : Local) : Option Nat :=
  match f.offsets.get? l.idx with
  | none => none
  | some o => some (f.base + o)

/-- `StackFrame::iplace_to_ptr`: `Val` resolves to the local's slot plus
its offset; `Indirect` reads the pointer stored at the outer local's slot
and then applies `ptr.off` and `off` in that order; other places are
`unreachable!()`. -/
def Frame.iplace_to_ptr (f : Frame) (m : Mem) : IPlace → Option Nat
  | .Val l off _ =>
    match f.local_ptr l with
    | none => none
    | some dest_ptr => some (dest_ptr + off)
  | .Indirect ptr off _ =>
    match f.local_ptr ptr.«local» with
    | none => none
    | some dest_ptr => some (readPtr m dest_ptr + ptr.off + off)
  | _ => none

/-- The resolution the specification claims for `Indirect`: the pointer is
read from `frame.base + offsets[outer_local] + outer_off` and the two
chained byte offsets follow the dereference. Written from the spec's
words, to be compared with `Frame.iplace_to_ptr` above. -/
def iplace_to_ptr_spec (f : Frame) (m : Mem) : IPlace → Option Nat
  | .Indirect ptr off _ =>
    match f.offsets.get? ptr.«local».idx with
    | none => none
    | some o => some (readPtr m (f.base + o + ptr.off) + ptr.off + off)
  | p => f.iplace_to_ptr m p

/-- `StackFrame::write_val`: a raw byte copy. -/
def write_val (m : Mem) (dst src size : Nat) : Mem :=
  copyBytes m src dst size

/-- `StackFrame::write_const`: only `u8` constants are implemented (plus a
no-op for zero-sized tuple constants, a `Constant` variant of `ykbh`'s
`ykpack` revision that the repository's `Constant` type does not have);
everything else is `todo!()`. -/
def write_const (_tyOf : TypeId → Ty) (m : Mem) (dest : Nat) (c : Constant) :
    Option Mem :=
  match c with
  | .Int (.UnsignedInt (.U8 v)) => some (writeByte m dest v)
  | _ => none

/-- `StackFrame::store`: copy `size-of(src.ty())` bytes between the two
resolved places, or materialise a constant. -/
def Frame.store (f : Frame) (tyOf : TypeId → Ty) (m : Mem) (dest src : IPlace) :
    Option Mem :=
  match src with
  | .Val _ _ _ | .Indirect _ _ _ =>
    match f.iplace_to_ptr m src with
    | none => none
    | some src_ptr =>
      match f.iplace_to_ptr m dest with
      | none => none
      | some dst_ptr =>
        match (tyOf src.ty).size with
        | none => none
        | some size => some (write_val m dst_ptr src_ptr size)
  | .Const v _ =>
    match f.iplace_to_ptr m dest with
    | none => none
    | some dst_ptr => write_const tyOf m dst_ptr v
  | .Unimplemented _ => none

/-- `SIRInterpreter::mkref`: write the source's resolved address into the
destination as a raw pointer; a `Const` destination is `unreachable!()`. -/
def Frame.mkref (f : Frame) (m : Mem) (dest src : IPlace) : Option Mem :=
  match dest with
  | .Val _ _ _ | .Indirect _ _ _ =>
    match f.iplace_to_ptr m src with
    | none => none
    | some src_ptr =>
      match f.iplace_to_ptr m dest with
      | none => none
      | some dst_ptr => some (writePtr m dst_ptr src_ptr)
  | _ => none

/-- `StackFrame::copy_args`: copy the call's arguments into locals `1..N`
of the new frame in positional order. -/
def copy_args (tyOf : TypeId → Ty) (f : Frame) (caller : Frame) (m : Mem) :
    List IPlace → Nat → Option Mem
  | [], _ => some m
  | arg :: rest, i =>
    match f.local_ptr ⟨i + 1⟩ with
    | none => none
    | some dst =>
      match arg with
      | .Val _ _ _ | .Indirect _ _ _ =>
        match caller.iplace_to_ptr m arg with
        | none => none
        | some src =>
          match (tyOf arg.ty).size with
          | none => none
          | some size => copy_args tyOf f caller (write_val m dst src size) rest (i + 1)
      | .Const v _ =>
        match write_const tyOf m dst v with
        | none => none
        | some m' => copy_args tyOf f caller m' rest (i + 1)
      | .Unimplemented _ => none

/-- The statement kind of the `ykpack` revision `ykbh` interprets.
Modelled from the spec and the `match stmt` in `SIRInterpreter::interpret`;
the variants whose fields that match never binds are given no fields. -/
inductive BStatement where
  | MkRef (dest src : IPlace)
  | DynOffs
  | Store (dest src : IPlace)
  | BinaryOp
  | Nop
  | Unimplemented (s : String)
  | Debug (s : String)
  | Cast
  | Call
  | StorageDead (l : Local)
deriving DecidableEq, Repr

/-- The terminator kind of the `ykpack` revision `ykbh` interprets: only
`Call` and `Return` are executable, every other kind (collected in
`Other`) hits the `t => todo!()` arm. -/
inductive BTerminator where
  | Call (operand : CallOperand) (args : List IPlace)
      (destination : Option (IPlace × Nat))
  | Return
  | Other (s : String)
deriving DecidableEq, Repr

/-- A basic block of the interpreter's SIR. -/
structure BBlock where
  stmts : List BStatement
  term : BTerminator
deriving DecidableEq, Repr

/-- The `Body` of the `ykpack` revision `ykbh` uses: blocks plus the
interpreter-only layout data (`layout`, `offsets`) and the
`TRACE_DEBUG` flag. -/
structure BBody where
  blocks : List BBlock
  trace_debug : Bool
  layout : Nat × Nat
  offsets : List Nat
deriving DecidableEq, Repr

/-- Execution of one statement against the current frame (the `match stmt`
in `interpret`): `Store`, `MkRef` and `Nop` are implemented, everything
else is `todo!()` or `unreachable!()`. -/
def execStmt (tyOf : TypeId → Ty) (f : Frame) (m : Mem) : BStatement → Option Mem
  | .MkRef dest src => f.mkref m dest src
  | .Store dest src => f.store tyOf m dest src
  | .Nop => some m
  | _ => none

/-- Execution of all statements of a block. -/
def execStmts (tyOf : TypeId → Ty) (f : Frame) (m : Mem) :
    List BStatement → Option Mem
  | [] => some m
  | s :: rest =>
    match execStmt tyOf f m s with
    | none => none
    | some m' => execStmts tyOf f m' rest

/-- The interpreter state: frame stack, current block index, body stack,
resume points, memory, and a bump allocator for fresh frames. The `frames`,
`bodies` and `returns` lists have their head as the top (the end of the
Rust `Vec`). -/
structure InterpState where
  frames : List Frame
  bbidx : Nat
  bodies : List BBody
  returns : List (Option (IPlace × Nat))
  mem : Mem
  nextAlloc : Nat

/-- The outcome of one iteration of the interpreter's `while let` loop. -/
inductive StepRes where
  | finished (s : InterpState)
  | next (s : InterpState)
  | panicked

/-- One iteration of the `while let Some(body) = bodies.last()` loop of
`SIRInterpreter::interpret`: execute the block's statements, then dispatch
on the terminator. An empty body stack ends the loop (unreachable from the
entry point, which starts with one body). -/
def interpStep (sir : String → Option BBody) (tyOf : TypeId → Ty)
    (s : InterpState) : StepRes :=
  match s.bodies with
  | [] => .finished s
  | body :: _ =>
    match body.blocks.get? s.bbidx with
    | none => .panicked
    | some blk =>
      match s.frames with
      | [] => .panicked
      | f :: fs =>
        match execStmts tyOf f s.mem blk.stmts with
        | none => .panicked
        | some m' =>
          match blk.term with
          | .Call op args dest =>
            match op with
            | .Unknown => .panicked
            | .Fn fname =>
              match sir fname with
              | none => .panicked
              | some cbody =>
                let nf : Frame := { base := s.nextAlloc, offsets := cbody.offsets }
                match copy_args tyOf nf f m' args 0 with
                | none => .panicked
                | some m'' =>
                  .next { frames := nf :: f :: fs, bbidx := 0,
                          bodies := cbody :: s.bodies, returns := dest :: s.returns,
                          mem := m'', nextAlloc := s.nextAlloc + cbody.layout.1 }
          | .Return =>
            match s.returns with
            | [] => .finished { s with mem := m' }
            | v :: rret =>
              match v with
              | some (dest, rbb) =>
                match f.local_ptr ⟨0⟩ with
                | none => .panicked
                | some ret_ptr =>
                  match fs with
                  | [] => .panicked
                  | nf :: _ =>
                    match nf.iplace_to_ptr m' dest with
                    | none => .panicked
                    | some dst_ptr =>
                      match (tyOf dest.ty).size with
                      | none => .panicked
                      | some sz =>
                        .next { frames := fs, bbidx := rbb, bodies := s.bodies.tail,
                                returns := rret, mem := write_val m' dst_ptr ret_ptr sz,
                                nextAlloc := s.nextAlloc }
              | none =>
                .next { frames := fs, bbidx := s.bbidx, bodies := s.bodies.tail,
                        returns := rret, mem := m', nextAlloc := s.nextAlloc }
          | .Other _ => .panicked

/-- The interpreter loop with explicit fuel; `some` is the normal exit of
`interpret`, `none` a panic or exhausted fuel. -/
def interpRun (sir : String → Option BBody) (tyOf : TypeId → Ty) :
    Nat → InterpState → Option InterpState
  | 0, _ => none
  | fuel + 1, s =>
    match interpStep sir tyOf s with
    | .finished s' => some s'
    | .next s' => interpRun sir tyOf fuel s'
    | .panicked => none

/-- `SIRInterpreter::interpret`: skip bodies flagged `TRACE_DEBUG`
entirely, otherwise run the loop from the given state. -/
def interpret (sir : String → Option BBody) (tyOf : TypeId → Ty) (fuel : Nat)
    (body : BBody) (s : InterpState) : Option InterpState :=
  if body.trace_debug then some s
  else interpRun sir tyOf fuel { s with bodies := [body] }

end bh

/-! ## Theorems -/

/-! ### C1: resolution of `IPlace::Indirect` -/

/-- The frame of the C1 counterexample. -/
def fC1 : bh.Frame := { base := 0, offsets := [0] }

/-- The memory of the C1 counterexample: the pointer-slot at address 0
holds the value 100, the slot at address 8 holds 0. -/
def mC1 : bh.Mem := fun a => if a = 0 then 100 else 0

/-- The indirect place of the C1 counterexample: outer local 0 with outer
offset 8 and declared offset 0. -/
def pC1 : bh.IPlace := .Indirect { «local» := ⟨0⟩, off := 8 } 0 (0, 0)

/-- C1 (counterexample): the claim reads the pointer at
`frame.base + offsets[outer_local] + outer_off`; the code reads it at
`frame.base + offsets[outer_local]` and only then applies the outer
offset. At this concrete frame and memory the code resolves the place to
108 while the claimed formula yields 8. -/
theorem indirect_resolution_counterexample :
    bh.Frame.iplace_to_ptr fC1 mC1 pC1 = some 108 ∧
    bh.iplace_to_ptr_spec fC1 mC1 pC1 = some 8 ∧
    bh.Frame.iplace_to_ptr fC1 mC1 pC1 ≠ bh.iplace_to_ptr_spec fC1 mC1 pC1 := by
  refine ⟨by decide, by decide, by decide⟩

/-- C1 (amended): resolving an `IPlace::Indirect` reads the pointer stored
at `frame.base + offsets[outer_local]` — the outer offset does not
contribute to the address the pointer is read from — then adds the outer
place's offset, then adds the Indirect's own declared offset: exactly one
dereference followed by the two chained byte offsets, in that order. -/
theorem indirect_resolution (f : bh.Frame) (m : bh.Mem) (ptr : bh.Ptr)
    (off : Nat) (ty : TypeId) (o : Nat)
    (h : f.offsets.get? ptr.«local».idx = some o) :
    f.iplace_to_ptr m (.Indirect ptr off ty) =
      some (bh.readPtr m (f.base + o) + ptr.off + off) := by
  have h' : f.offsets[ptr.«local».idx]? = some o := by
    simpa [List.get?_eq_getElem?] using h
  simp [bh.Frame.iplace_to_ptr, bh.Frame.local_ptr, h']

/-- Witness for C1: the amended formula evaluated at the counterexample's
input gives exactly the code's 108. -/
theorem indirect_resolution_witness :
    fC1.offsets.get? 0 = some 0 ∧
    bh.Frame.iplace_to_ptr fC1 mC1 pC1 = some (bh.readPtr mC1 0 + 8 + 0) := by
  exact ⟨by decide, indirect_resolution fC1 mC1 ⟨⟨0⟩, 8⟩ 0 (0, 0) 0 (by decide)⟩

/-! ### C2: boundary trimming -/

/-- The tail pattern the specification claims (three storage-dead markers
before the two assignments), fed to the trimming exactly as the claim
describes the shape of a finished trace. -/
def opsC2dead : List TirOp :=
  [.Statement (.StorageDead ⟨9⟩),
   .Statement (.StorageDead ⟨1⟩),
   .Statement (.StorageDead ⟨2⟩),
   .Statement (.StorageDead ⟨3⟩),
   .Statement (.Assign ⟨⟨4⟩, []⟩ (.Use (.Constant (.Bool false)))),
   .Statement (.Assign ⟨⟨5⟩, []⟩ (.Use (.Constant (.Bool true)))),
   .Statement (.Enter (.Fn "stop_tracing") [] none 0)]

/-- The same shape with storage-live markers in the three popped slots. -/
def opsC2live : List TirOp :=
  [.Statement (.StorageDead ⟨9⟩),
   .Statement (.StorageLive ⟨1⟩),
   .Statement (.StorageLive ⟨2⟩),
   .Statement (.StorageLive ⟨3⟩),
   .Statement (.Assign ⟨⟨4⟩, []⟩ (.Use (.Constant (.Bool false)))),
   .Statement (.Assign ⟨⟨5⟩, []⟩ (.Use (.Constant (.Bool true)))),
   .Statement (.Enter (.Fn "stop_tracing") [] none 0)]

/-- C2 (counterexample): a trace tail carrying three storage-dead markers
— the fixed pattern the claim says is popped — makes the trimming panic,
while the same tail with three storage-live markers is trimmed cleanly. -/
theorem trimming_counterexample :
    trimOps opsC2dead = none ∧ trimOps opsC2live = some [] := by
  refine ⟨by decide, by decide⟩

/-- A successful trim exposes the trace's boundary shape: one leading
storage-dead marker, the kept middle, and the six-operation stop pattern
at the tail (shared helper for the trimming claims). -/
theorem trimOps_shape_mp (ops res : List TirOp) (h : trimOps ops = some res) :
    ∃ x a b c pf pa ra s args dst off,
      charsContain ("stop_tracing".data) s.data = true ∧
      ops = .Statement (.StorageDead x) :: res ++
        [.Statement (.StorageLive a), .Statement (.StorageLive b),
         .Statement (.StorageLive c),
         .Statement (.Assign pf (.Use (.Constant (.Bool false)))),
         .Statement (.Assign pa ra),
         .Statement (.Enter (.Fn s) args dst off)] := by
  unfold trimOps at h
  split at h
  case _ s args dst off pa ra pf a b c rest heq =>
    split at h
    case isTrue hs =>
      split at h
      case _ x rest2 heq2 =>
        obtain rfl : rest2 = res := by injection h
        refine ⟨x, c, b, a, pf, pa, ra, s, args, dst, off, hs, ?_⟩
        have : ops = (ops.reverse).reverse := (List.reverse_reverse ops).symm
        rw [this, heq]
        have : rest = (rest.reverse).reverse := (List.reverse_reverse rest).symm
        rw [this, heq2]
        simp
      case _ => exact absurd h (by simp)
    case isFalse => exact absurd h (by simp)
  case _ => exact absurd h (by simp)

/-- The converse shape lemma: a sequence of exactly that boundary shape is
trimmed to its middle (shared helper for the trimming claims). -/
theorem trimOps_shape_mpr (res : List TirOp) (x a b c : Local) (pf pa : Place)
    (ra : Rvalue) (s : String) (args : List Operand) (dst : Option Place)
    (off : Nat) (hs : charsContain ("stop_tracing".data) s.data = true) :
    trimOps (.Statement (.StorageDead x) :: res ++
        [.Statement (.StorageLive a), .Statement (.StorageLive b),
         .Statement (.StorageLive c),
         .Statement (.Assign pf (.Use (.Constant (.Bool false)))),
         .Statement (.Assign pa ra),
         .Statement (.Enter (.Fn s) args dst off)]) = some res := by
  unfold trimOps
  rw [show (TirOp.Statement (.StorageDead x) :: res ++
      [TirOp.Statement (.StorageLive a), .Statement (.StorageLive b),
       .Statement (.StorageLive c),
       .Statement (.Assign pf (.Use (.Constant (.Bool false)))),
       .Statement (.Assign pa ra),
       .Statement (.Enter (.Fn s) args dst off)]).reverse =
    .Statement (.Enter (.Fn s) args dst off) ::
    .Statement (.Assign pa ra) ::
    .Statement (.Assign pf (.Use (.Constant (.Bool false)))) ::
    .Statement (.StorageLive c) ::
    .Statement (.StorageLive b) ::
    .Statement (.StorageLive a) ::
    (res.reverse ++ [.Statement (.StorageDead x)]) from by simp]
  simp only [hs, if_true]
  rw [show (res.reverse ++ [TirOp.Statement (.StorageDead x)]).reverse =
    .Statement (.StorageDead x) :: res from by simp]

/-- C2 (amended): the trimming succeeds exactly on op sequences that end
with three storage-live markers, one assignment of the boolean constant
`false`, one assignment and the trace-stop `Enter` (popped in the reverse
of that order), and begin with one storage-dead marker; everything else
fails fatally, and the result is the middle of the sequence. -/
theorem trimming_shape (ops res : List TirOp) :
    trimOps ops = some res ↔
    ∃ x a b c pf pa ra s args dst off,
      charsContain ("stop_tracing".data) s.data = true ∧
      ops = .Statement (.StorageDead x) :: res ++
        [.Statement (.StorageLive a), .Statement (.StorageLive b),
         .Statement (.StorageLive c),
         .Statement (.Assign pf (.Use (.Constant (.Bool false)))),
         .Statement (.Assign pa ra),
         .Statement (.Enter (.Fn s) args dst off)] := by
  constructor
  · exact trimOps_shape_mp ops res
  · rintro ⟨x, a, b, c, pf, pa, ra, s, args, dst, off, hs, rfl⟩
    exact trimOps_shape_mpr res x a b c pf pa ra s args dst off hs

/-- Witness for C2: trimming the storage-live sequence with one middle
operation keeps exactly that operation. -/
theorem trimming_shape_witness :
    trimOps [.Statement (.StorageDead ⟨9⟩), .Statement .Nop,
      .Statement (.StorageLive ⟨1⟩), .Statement (.StorageLive ⟨2⟩),
      .Statement (.StorageLive ⟨3⟩),
      .Statement (.Assign ⟨⟨4⟩, []⟩ (.Use (.Constant (.Bool false)))),
      .Statement (.Assign ⟨⟨5⟩, []⟩ (.Use (.Constant (.Bool true)))),
      .Statement (.Enter (.Fn "stop_tracing") [] none 0)] =
      some [.Statement .Nop] := by
  exact (trimming_shape _ _).2
    ⟨⟨9⟩, ⟨1⟩, ⟨2⟩, ⟨3⟩, ⟨⟨4⟩, []⟩, ⟨⟨5⟩, []⟩, .Use (.Constant (.Bool true)),
     "stop_tracing", [], none, 0, by decide, by decide⟩

/-! ### C3: guard fidelity for `SwitchInt` -/

/-- C3: for a `SwitchInt` terminator, when the next traced block is one of
the declared targets the guard is `Integer` of that case's value; when the
next block is none of them and is the otherwise edge, the guard is
`OtherInteger` of all declared case values. -/
theorem switch_guard_fidelity (discr : Place) (values : List SerU128)
    (tbs : List Nat) (obb : Nat) (nloc : SirLoc) :
    (∀ idx v, tbs.findIdx? (fun e => e = nloc.bb_idx) = some idx →
        values.get? idx = some v →
        deriveGuard (.SwitchInt discr values tbs obb) (some nloc) =
          some (some { val := discr, kind := .Integer v.val })) ∧
    (nloc.bb_idx ∉ tbs → nloc.bb_idx = obb →
        deriveGuard (.SwitchInt discr values tbs obb) (some nloc) =
          some (some { val := discr,
                       kind := .OtherInteger (values.map SerU128.val) })) := by
  constructor
  · intro idx v h1 h2
    have h2' : values[idx]? = some v := by
      simpa [List.get?_eq_getElem?] using h2
    simp [deriveGuard, h1, h2']
  · intro h1 h2
    subst h2
    have hnone : tbs.findIdx? (fun e => e = nloc.bb_idx) = none := by
      rw [List.findIdx?_eq_none_iff]
      intro x hx
      simp only [decide_eq_false_iff_not]
      intro heq
      exact h1 (heq ▸ hx)
    simp [deriveGuard, hnone]

/-- Witness for C3: the spec's example — cases `{5 → bb10, 7 → bb11}` with
fallback `bb12`; proceeding to `bb11` yields `Integer 7`, proceeding to
`bb12` yields `OtherInteger [5, 7]`. -/
theorem switch_guard_fidelity_witness :
    deriveGuard (.SwitchInt ⟨⟨1⟩, []⟩ [⟨0, 5⟩, ⟨0, 7⟩] [10, 11] 12)
        (some ⟨"f", 11⟩) =
      some (some { val := ⟨⟨1⟩, []⟩, kind := .Integer 7 }) ∧
    deriveGuard (.SwitchInt ⟨⟨1⟩, []⟩ [⟨0, 5⟩, ⟨0, 7⟩] [10, 11] 12)
        (some ⟨"f", 12⟩) =
      some (some { val := ⟨⟨1⟩, []⟩, kind := .OtherInteger [5, 7] }) := by
  constructor
  · have h := (switch_guard_fidelity ⟨⟨1⟩, []⟩ [⟨0, 5⟩, ⟨0, 7⟩] [10, 11] 12
      ⟨"f", 11⟩).1 1 ⟨0, 7⟩ (by decide) (by decide)
    rw [h]
    decide
  · have h := (switch_guard_fidelity ⟨⟨1⟩, []⟩ [⟨0, 5⟩, ⟨0, 7⟩] [10, 11] 12
      ⟨"f", 12⟩).2 (by decide) (by decide)
    rw [h]
    decide

/-! ### C5: local-0 substitution -/

/-- C5: inside an inlined callee (a nonempty destination-place stack),
renaming a place whose local is 0 yields the top of the destination-place
stack verbatim, and lowering an assignment to such a place targets that
destination, never a renamed local `offset + 0`. -/
theorem local0_substitution (r : VarRenamer) (body : Body) (p : Place)
    (d : Place) (rest : List Place) (h : r.returns = d :: rest)
    (h0 : p.«local» = ⟨0⟩) :
    r.rename_place p body = some (d, r) ∧
    (∀ rv res, lowerStmt r body (.Assign p rv) = some res →
       ∃ nrv r', res = (.Assign d nrv, r')) := by
  have hp : r.rename_place p body = some (d, r) := by
    simp [VarRenamer.rename_place, h0, h]
  refine ⟨hp, ?_⟩
  intro rv res hres
  simp only [lowerStmt, hp] at hres
  cases hrv : r.rename_rvalue rv body with
  | none => rw [hrv] at hres; exact absurd hres (by simp)
  | some pr =>
    rw [hrv] at hres
    obtain ⟨nrv, r'⟩ := pr
    exact ⟨nrv, r', by injection hres with h'; exact h'.symm⟩

/-- Witness for C5: a concrete renamer one call deep with destination
`$6.0`; the place `$0` lowers to that destination. -/
theorem local0_substitution_witness :
    VarRenamer.rename_place
      { stack := [5, 0], offset := 5, acc := some 9,
        returns := [⟨⟨6⟩, [.Field 0]⟩], used_decls := [] }
      ⟨⟨0⟩, []⟩ { symbol_name := "f", blocks := [], flags := 0,
                  trace_inputs_local := none, local_decls := [⟨(0, 0)⟩] } =
      some (⟨⟨6⟩, [.Field 0]⟩,
        { stack := [5, 0], offset := 5, acc := some 9,
          returns := [⟨⟨6⟩, [.Field 0]⟩], used_decls := [] }) := by
  exact (local0_substitution _ _ _ _ [] rfl rfl).1

/-! ### C10: `TirTrace::op` indexing -/

/-- C10: for `idx < len()` the access returns the idx-th operation; the
bound is a genuine precondition (checked only by a debug assertion, with
`get_unchecked` behind it), and on an empty trace the assertion's
`len() - 1` computation underflows for every index instead of reporting a
bounds error. -/
theorem trace_op_indexing (t : TirTrace) (idx : Nat) :
    (∀ (h : idx < t.len), t.op idx = .val (t.ops.get ⟨idx, h⟩)) ∧
    (t.ops = [] → t.op idx = .panicOverflow) := by
  constructor
  · intro h
    have h' : idx < t.ops.length := h
    have hne : ¬t.ops.length = 0 := by omega
    have hle : idx ≤ t.ops.length - 1 := by omega
    simp [TirTrace.op, hne, hle, List.getElem?_eq_getElem h']
  · intro h
    simp [TirTrace.op, h]

/-- Witness for C10: a two-operation trace reads its second op. -/
theorem trace_op_indexing_witness :
    TirTrace.op { ops := [.Statement .Nop, .Statement .Leave],
                  trace_inputs_local := none, local_decls := [] } 1 =
      .val (.Statement .Leave) := by
  exact (trace_op_indexing
    { ops := [.Statement .Nop, .Statement .Leave],
      trace_inputs_local := none, local_decls := [] } 1).1 (by decide)

/-! ### C4: alpha-renaming injectivity

The renamer-affecting operations `TirTrace::new` performs between two
call entries are collected into an event type, so that the accumulator's
monotonicity — and with it range disjointness — can be stated over any
interleaving of entries, exits and (idempotent) accumulator
initialisations. -/

/-- A renamer-affecting event of the lowering loop. -/
inductive RenEvent where
  | initAcc (n : Nat)
  | enter (n : Nat) (dest : Place)
  | leave
deriving DecidableEq, Repr

/-- Apply one event to the renamer. -/
def VarRenamer.applyEvent (r : VarRenamer) : RenEvent → Option VarRenamer
  | .initAcc n => some (r.init_acc n)
  | .enter n d => r.enter n d
  | .leave => r.leave

/-- Apply a sequence of events to the renamer. -/
def VarRenamer.runEvents (r : VarRenamer) : List RenEvent → Option VarRenamer
  | [] => some r
  | e :: es =>
    match r.applyEvent e with
    | none => none
    | some r' => r'.runEvents es

/-- The accumulator is set and never decreases across any single event. -/
theorem applyEvent_acc_mono (r r' : VarRenamer) (e : RenEvent) (a : Nat)
    (h : r.applyEvent e = some r') (ha : r.acc = some a) :
    ∃ a', r'.acc = some a' ∧ a ≤ a' := by
  cases e with
  | initAcc n =>
    simp only [VarRenamer.applyEvent, VarRenamer.init_acc, ha] at h
    simp at h
    exact ⟨a, by rw [← h, ha], le_refl a⟩
  | enter n d =>
    simp only [VarRenamer.applyEvent, VarRenamer.enter, ha] at h
    injection h with h
    exact ⟨a + n, by rw [← h], Nat.le_add_right a n⟩
  | leave =>
    simp only [VarRenamer.applyEvent, VarRenamer.leave] at h
    cases hs : r.stack with
    | nil => rw [hs] at h; exact absurd h (by simp)
    | cons x rest =>
      rw [hs] at h
      cases rest with
      | nil => exact absurd h (by simp)
      | cons v tl =>
        injection h with h
        exact ⟨a, by rw [← h]; exact ha, le_refl a⟩

/-- The accumulator is set and never decreases across any event sequence. -/
theorem runEvents_acc_mono (es : List RenEvent) :
    ∀ (r r' : VarRenamer) (a : Nat), r.runEvents es = some r' →
      r.acc = some a → ∃ a', r'.acc = some a' ∧ a ≤ a' := by
  induction es with
  | nil =>
    intro r r' a h ha
    simp only [VarRenamer.runEvents] at h
    injection h with h
    exact ⟨a, by rw [← h]; exact ha, le_refl a⟩
  | cons e es ih =>
    intro r r' a h ha
    simp only [VarRenamer.runEvents] at h
    cases happ : r.applyEvent e with
    | none => rw [happ] at h; exact absurd h (by simp)
    | some r1 =>
      rw [happ] at h
      obtain ⟨a1, ha1, hle1⟩ := applyEvent_acc_mono r r1 e a happ ha
      obtain ⟨a', ha', hle'⟩ := ih r1 r' a1 h ha1
      exact ⟨a', ha', le_trans hle1 hle'⟩

/-- C4: a frame entered when the accumulator holds `a` renames its `n`
locals into the contiguous range beginning at `a` (renamed index
`a + original index`), and any frame entered later — after an arbitrary
sequence of renamer events, so in particular any simultaneously open inner
frame — starts at an offset at least `a + n`, so no two locals of the two
frames receive the same renamed index. -/
theorem renaming_disjoint (r₁ : VarRenamer) (a n : Nat) (d : Place)
    (r₂ : VarRenamer) (es : List RenEvent) (r₃ : VarRenamer) (n' : Nat)
    (d' : Place) (r₄ : VarRenamer)
    (ha : r₁.acc = some a)
    (h2 : r₁.enter n d = some r₂)
    (h3 : r₂.runEvents es = some r₃)
    (h4 : r₃.enter n' d' = some r₄) :
    r₂.offset = a ∧
    (∀ (l : Local) (body : Body) res,
        r₂.rename_local l body = some res → res.1.idx = a + l.idx) ∧
    a + n ≤ r₄.offset ∧
    (∀ l l' : Local, l.idx < n →
        (a + l.idx : Nat) ≠ r₄.offset + l'.idx) := by
  have h2' : r₂ = { stack := a :: r₁.stack, offset := a, acc := some (a + n),
                    returns := d :: r₁.returns, used_decls := r₁.used_decls } := by
    simp only [VarRenamer.enter, ha] at h2
    injection h2 with h2
    exact h2.symm
  have hacc2 : r₂.acc = some (a + n) := by rw [h2']
  obtain ⟨a3, ha3, hle3⟩ := runEvents_acc_mono es r₂ r₃ (a + n) h3 hacc2
  have h4' : r₄.offset = a3 := by
    simp only [VarRenamer.enter, ha3] at h4
    injection h4 with h4
    rw [← h4]
  refine ⟨by rw [h2'], ?_, ?_, ?_⟩
  · intro l body res hres
    simp only [VarRenamer.rename_local] at hres
    cases hd : body.local_decls.get? l.idx with
    | none => rw [hd] at hres; exact absurd hres (by simp)
    | some dcl =>
      rw [hd] at hres
      have : res.1 = ⟨l.idx + r₂.offset⟩ := by
        injection hres with hres
        rw [← hres]
      rw [this, h2']
      simp [Nat.add_comm]
  · rw [h4']; omega
  · intro l l' hl
    rw [h4']
    omega

/-- Witness for C4: entering a frame of 3 locals at accumulator 5, then a
sibling frame of 2 locals, keeps the index ranges `[5, 8)` and `[8, 10)`
apart. -/
theorem renaming_disjoint_witness :
    (VarRenamer.new.init_acc 5).offset = 0 ∧
    ((5 : Nat) + 0 ≠
      ({ stack := [8, 5, 0], offset := 8, acc := some 10,
         returns := [⟨⟨2⟩, []⟩, ⟨⟨1⟩, []⟩], used_decls := [] } : VarRenamer).offset
        + 0) := by
  refine ⟨by decide, ?_⟩
  have h := renaming_disjoint (VarRenamer.new.init_acc 5) 5 3 ⟨⟨1⟩, []⟩
    { stack := [5, 0], offset := 5, acc := some 8,
      returns := [⟨⟨1⟩, []⟩], used_decls := [] }
    []
    { stack := [5, 0], offset := 5, acc := some 8,
      returns := [⟨⟨1⟩, []⟩], used_decls := [] }
    2 ⟨⟨2⟩, []⟩
    { stack := [8, 5, 0], offset := 8, acc := some 10,
      returns := [⟨⟨2⟩, []⟩, ⟨⟨1⟩, []⟩], used_decls := [] }
    (by decide) (by decide) (by decide) (by decide)
  exact h.2.2.2 ⟨0⟩ ⟨0⟩ (by decide)

/-! ### C7: the only recoverable error is the missing-body condition -/

/-- A location whose symbol has a body can only make the loop step panic
or succeed, never return the recoverable error. -/
theorem processLoc_not_err (sir : String → Option Body) (st : LoopState)
    (loc : SirLoc) (peeked : Option SirLoc) (body : Body)
    (hb : sir loc.symbol_name = some body) :
    ∀ e, processLoc sir st loc peeked ≠ .err e := by
  intro e h
  unfold processLoc at h
  rw [hb] at h
  cases hb2 : body.blocks.get? loc.bb_idx with
  | none => simp only [hb2] at h; exact BRes.noConfusion h
  | some blk =>
    simp only [hb2] at h
    cases hl : lowerStmts (st.rnm.init_acc body.local_decls.length) body blk.stmts with
    | none => simp only [hl] at h; exact BRes.noConfusion h
    | some pr1 =>
      obtain ⟨stmtOps, r1⟩ := pr1
      simp only [hl] at h
      cases hl2 : lowerTerm r1 sir body blk.term with
      | none => simp only [hl2] at h; exact BRes.noConfusion h
      | some pr2 =>
        obtain ⟨termOps, r2⟩ := pr2
        simp only [hl2] at h
        cases hg : deriveGuard blk.term peeked with
        | none => simp only [hg] at h; exact BRes.noConfusion h
        | some g => simp only [hg] at h; exact BRes.noConfusion h

/-- The main loop returns `err` exactly for a missing body among the
processed locations, and the error names the offending symbol. -/
theorem buildOps_err (sir : String → Option Body) :
    ∀ (trace : List SirLoc) (st : LoopState) (e : InvalidTraceError),
      buildOps sir st trace = .err e →
      ∃ sym, e = .NoSir sym ∧ sir sym = none ∧
        sym ∈ trace.map SirLoc.symbol_name := by
  intro trace
  induction trace with
  | nil =>
    intro st e h
    simp [buildOps] at h
  | cons loc rest ih =>
    intro st e h
    simp only [buildOps] at h
    cases hp : processLoc sir st loc rest.head? with
    | err e' =>
      rw [hp] at h
      injection h with h
      cases hs : sir loc.symbol_name with
      | some body => exact absurd hp (processLoc_not_err sir st loc rest.head? body hs e')
      | none =>
        have he : e' = .NoSir loc.symbol_name := by
          unfold processLoc at hp
          rw [hs] at hp
          injection hp with hp
          exact hp.symm
        exact ⟨loc.symbol_name, by rw [← h, he], hs, by simp⟩
    | panicked =>
      rw [hp] at h
      simp at h
    | ok st' =>
      rw [hp] at h
      obtain ⟨sym, h1, h2, h3⟩ := ih st' e h
      exact ⟨sym, h1, h2, by simp at h3 ⊢; exact Or.inr h3⟩

/-- When every processed symbol has a body, the main loop never errs. -/
theorem buildOps_no_err (sir : String → Option Body) :
    ∀ (trace : List SirLoc) (st : LoopState),
      (∀ loc ∈ trace, (sir loc.symbol_name).isSome = true) →
      ∀ e, buildOps sir st trace ≠ .err e := by
  intro trace
  induction trace with
  | nil =>
    intro st _ e h
    simp [buildOps] at h
  | cons loc rest ih =>
    intro st hall e h
    simp only [buildOps] at h
    cases hp : processLoc sir st loc rest.head? with
    | err e' =>
      have hsome : (sir loc.symbol_name).isSome = true := hall loc (by simp)
      obtain ⟨body, hb⟩ := Option.isSome_iff_exists.mp hsome
      exact processLoc_not_err sir st loc rest.head? body hb e' hp
    | panicked =>
      rw [hp] at h
      simp at h
    | ok st' =>
      rw [hp] at h
      exact ih st' (fun l hl => hall l (by simp [hl])) e h

/-- C7: `TirTrace::new` returns a recoverable error exactly when some
visited location's symbol has no SIR body; the error is `NoSir` and names
that symbol, and no other error variant is ever returned (every other
failure is a panic, embedded as `panicked`). -/
theorem lowering_error_exactness (sir : String → Option Body)
    (trace : List SirLoc) :
    (∀ e, TirTrace.new sir trace = .err e →
       ∃ sym, e = .NoSir sym ∧ sir sym = none ∧
         sym ∈ trace.map SirLoc.symbol_name) ∧
    ((∀ loc ∈ trace, (sir loc.symbol_name).isSome = true) →
       ∀ e, TirTrace.new sir trace ≠ .err e) := by
  constructor
  · intro e h
    unfold TirTrace.new at h
    split at h
    next e' heq =>
      injection h with h
      exact h ▸ buildOps_err sir trace _ e' heq
    next => simp at h
    next st heq => split at h <;> simp at h
  · intro hall e h
    unfold TirTrace.new at h
    split at h
    next e' heq =>
      exact buildOps_no_err sir trace _ hall e' heq
    next => simp at h
    next st heq => split at h <;> simp at h

/-- Witness for C7: a one-location trace over an empty registry errs with
`NoSir` naming that location's symbol. -/
theorem lowering_error_exactness_witness :
    ∃ sym, (InvalidTraceError.NoSir "foo") = .NoSir sym ∧
      (fun _ => (none : Option Body)) sym = none ∧
      sym ∈ ([⟨"foo", 0⟩] : List SirLoc).map SirLoc.symbol_name := by
  exact (lowering_error_exactness (fun _ => none) [⟨"foo", 0⟩]).1
    (.NoSir "foo") rfl

/-! ### C6: return semantics of the interpreter -/

/-- C6: one theorem in three parts. (1) A `Return` with an outstanding
resume point carrying a destination pops the current frame, copies the
popped frame's local 0 to the resume destination resolved in the new top
frame using the destination type's size, and restores `bbidx` to the
resume block. (2) A `Return` with no outstanding resume point finishes
interpretation. (3) When the body stack is nonempty (as it always is from
the entry point), a finished step can only arise that way — the only
normal exit. -/
theorem return_terminator_semantics (sir : String → Option bh.BBody)
    (tyOf : TypeId → Ty) :
    (∀ (s : bh.InterpState) body brest blk f nf fs m' dest rbb rret ret_ptr
        dst_ptr sz,
       s.bodies = body :: brest →
       body.blocks.get? s.bbidx = some blk →
       s.frames = f :: nf :: fs →
       bh.execStmts tyOf f s.mem blk.stmts = some m' →
       blk.term = .Return →
       s.returns = some (dest, rbb) :: rret →
       f.local_ptr ⟨0⟩ = some ret_ptr →
       nf.iplace_to_ptr m' dest = some dst_ptr →
       (tyOf dest.ty).size = some sz →
       bh.interpStep sir tyOf s = .next
         { frames := nf :: fs, bbidx := rbb, bodies := brest, returns := rret,
           mem := bh.write_val m' dst_ptr ret_ptr sz,
           nextAlloc := s.nextAlloc }) ∧
    (∀ (s : bh.InterpState) body brest blk f fs m',
       s.bodies = body :: brest →
       body.blocks.get? s.bbidx = some blk →
       s.frames = f :: fs →
       bh.execStmts tyOf f s.mem blk.stmts = some m' →
       blk.term = .Return →
       s.returns = [] →
       bh.interpStep sir tyOf s = .finished { s with mem := m' }) ∧
    (∀ (s : bh.InterpState) s', s.bodies ≠ [] →
       bh.interpStep sir tyOf s = .finished s' →
       ∃ body brest blk f fs m', s.bodies = body :: brest ∧
         body.blocks.get? s.bbidx = some blk ∧ s.frames = f :: fs ∧
         bh.execStmts tyOf f s.mem blk.stmts = some m' ∧
         blk.term = .Return ∧ s.returns = [] ∧
         s' = { s with mem := m' }) := by
  refine ⟨?_, ?_, ?_⟩
  · intro s body brest blk f nf fs m' dest rbb rret ret_ptr dst_ptr sz
      hbody hblk hframes hexec hterm hret hlp hip hsz
    obtain ⟨frames, bbidx, bodies, returns, mem, nextAlloc⟩ := s
    simp only at hbody hblk hframes hexec hret ⊢
    subst hbody hframes hret
    unfold bh.interpStep
    simp only [hblk, hexec, hterm, hlp, hip, hsz, List.tail_cons]
  · intro s body brest blk f fs m' hbody hblk hframes hexec hterm hret
    obtain ⟨frames, bbidx, bodies, returns, mem, nextAlloc⟩ := s
    simp only at hbody hblk hframes hexec hret ⊢
    subst hbody hframes hret
    unfold bh.interpStep
    simp only [hblk, hexec, hterm]
  · intro s s' hne h
    obtain ⟨frames, bbidx, bodies, returns, mem, nextAlloc⟩ := s
    simp only at hne ⊢
    unfold bh.interpStep at h
    cases bodies with
    | nil => exact absurd rfl hne
    | cons body brest =>
      simp only at h
      cases hblk : body.blocks.get? bbidx with
      | none => simp only [hblk] at h; exact bh.StepRes.noConfusion h
      | some blk =>
        simp only [hblk] at h
        cases frames with
        | nil => exact bh.StepRes.noConfusion h
        | cons f fs =>
          cases hexec : bh.execStmts tyOf f mem blk.stmts with
          | none => simp only [hexec] at h; exact bh.StepRes.noConfusion h
          | some m' =>
            simp only [hexec] at h
            cases hterm : blk.term with
            | Call op args dest =>
              simp only [hterm] at h
              cases op with
              | Unknown => exact bh.StepRes.noConfusion h
              | Fn fname =>
                cases hs : sir fname with
                | none => simp only [hs] at h; exact bh.StepRes.noConfusion h
                | some cbody =>
                  simp only [hs] at h
                  cases hca : bh.copy_args tyOf
                      { base := nextAlloc, offsets := cbody.offsets } f m' args 0 with
                  | none => simp only [hca] at h; exact bh.StepRes.noConfusion h
                  | some m'' => simp only [hca] at h; exact bh.StepRes.noConfusion h
            | Return =>
              simp only [hterm] at h
              cases returns with
              | nil =>
                injection h with h
                exact ⟨body, brest, blk, f, fs, m', rfl, hblk, rfl, hexec,
                  hterm, rfl, h.symm⟩
              | cons v rret =>
                cases v with
                | none =>
                  exact bh.StepRes.noConfusion h
                | some pr =>
                  obtain ⟨dest, rbb⟩ := pr
                  cases hlp : f.local_ptr ⟨0⟩ with
                  | none => simp only [hlp] at h; exact bh.StepRes.noConfusion h
                  | some ret_ptr =>
                    simp only [hlp] at h
                    cases fs with
                    | nil => exact bh.StepRes.noConfusion h
                    | cons nf fs' =>
                      cases hip : nf.iplace_to_ptr m' dest with
                      | none => simp only [hip] at h; exact bh.StepRes.noConfusion h
                      | some dst_ptr =>
                        simp only [hip] at h
                        cases hsz : (tyOf dest.ty).size with
                        | none => simp only [hsz] at h; exact bh.StepRes.noConfusion h
                        | some sz => simp only [hsz] at h; exact bh.StepRes.noConfusion h
            | Other msg => simp only [hterm] at h; exact bh.StepRes.noConfusion h

/-- Witness for C6: a concrete one-call-deep state whose `Return` copies
the callee's 1-byte local 0 to the caller's local 2 and resumes at block
3. -/
theorem return_terminator_semantics_witness :
    bh.interpStep (fun _ => none) (fun _ => .Bool)
      { frames := [{ base := 100, offsets := [0] }, { base := 0, offsets := [0, 8, 16] }],
        bbidx := 0,
        bodies := [{ blocks := [{ stmts := [], term := .Return }],
                     trace_debug := false, layout := (8, 8), offsets := [0] },
                   { blocks := [], trace_debug := false, layout := (24, 8),
                     offsets := [0, 8, 16] }],
        returns := [some (.Val ⟨2⟩ 0 (0, 0), 3)], mem := fun _ => 0,
        nextAlloc := 200 } =
      .next { frames := [{ base := 0, offsets := [0, 8, 16] }], bbidx := 3,
              bodies := [{ blocks := [], trace_debug := false, layout := (24, 8),
                           offsets := [0, 8, 16] }],
              returns := [],
              mem := bh.write_val (fun _ => 0) 16 100 1, nextAlloc := 200 } := by
  exact (return_terminator_semantics (fun _ => none) (fun _ => .Bool)).1
    _ _ _ _ _ _ _ _ _ _ _ _ _ _
    rfl rfl rfl rfl rfl rfl rfl rfl rfl

/-! ### C9: guard places are cloned verbatim from the terminator -/

/-- The place a guard is derived from, read straight off the SIR
terminator (the `discr.clone()` / `cond.clone()` of `TirTrace::new`). -/
def rawGuardPlace : Terminator → Option Place
  | .SwitchInt discr _ _ _ => some discr
  | .Assert cond _ _ => some cond
  | _ => none

/-- Every guard `deriveGuard` produces carries the terminator's own
discriminant or condition place, untouched. -/
theorem deriveGuard_val (term : Terminator) (peeked : Option SirLoc)
    (g : Guard) (h : deriveGuard term peeked = some (some g)) :
    rawGuardPlace term = some g.val := by
  cases term with
  | SwitchInt discr values tbs obb =>
    unfold deriveGuard at h
    cases peeked with
    | none => exact Option.noConfusion h
    | some nloc =>
      cases hf : tbs.findIdx? (fun e => e = nloc.bb_idx) with
      | some idx =>
        simp only [hf] at h
        cases hv : values.get? idx with
        | none => simp only [hv] at h; exact Option.noConfusion h
        | some v =>
          simp only [hv] at h
          injection h with h
          injection h with h
          subst h
          rfl
      | none =>
        simp only [hf] at h
        split at h
        · injection h with h
          injection h with h
          subst h
          rfl
        · exact Option.noConfusion h
  | Assert cond expected tb =>
    injection h with h
    injection h with h
    subst h
    rfl
  | Goto bb => simp [deriveGuard] at h
  | Return => simp [deriveGuard] at h
  | Unreachable => simp [deriveGuard] at h
  | Drop l tb => simp [deriveGuard] at h
  | DropAndReplace l tb v => simp [deriveGuard] at h
  | Call op args dst => simp [deriveGuard] at h
  | Unimplemented s => simp [deriveGuard] at h

/-- The terminator handling only emits statements, never guards. -/
theorem lowerTerm_no_guard (r : VarRenamer) (sir : String → Option Body)
    (body : Body) (term : Terminator) (pr : List TirOp × VarRenamer)
    (h : lowerTerm r sir body term = some pr) (g : Guard) :
    TirOp.Guard g ∉ pr.1 := by
  intro hmem
  cases term with
  | Call op args dest =>
    unfold lowerTerm at h
    cases dest with
    | none => exact Option.noConfusion h
    | some dpr =>
      obtain ⟨retp, bb⟩ := dpr
      cases hrp : r.rename_place retp body with
      | none => simp only [hrp] at h; exact Option.noConfusion h
      | some pr2 =>
        obtain ⟨ret_val, r1⟩ := pr2
        simp only [hrp] at h
        cases op with
        | Unknown => exact Option.noConfusion h
        | Fn sym =>
          cases hra : r1.rename_args args body with
          | none => simp only [hra] at h; exact Option.noConfusion h
          | some pr3 =>
            obtain ⟨newargs, r2⟩ := pr3
            simp only [hra] at h
            cases hs : sir sym with
            | some callbody =>
              simp only [hs] at h
              cases he : r2.enter callbody.local_decls.length ret_val with
              | none => simp only [he] at h; exact Option.noConfusion h
              | some r3 =>
                simp only [he] at h
                cases hd : declArgs r3 callbody newargs.length with
                | none => simp only [hd] at h; exact Option.noConfusion h
                | some r4 =>
                  simp only [hd] at h
                  injection h with h
                  subst h
                  simp at hmem
            | none =>
              simp only [hs] at h
              injection h with h
              subst h
              simp at hmem
  | Return =>
    unfold lowerTerm at h
    cases hl : r.leave with
    | none => rw [hl] at h; exact Option.noConfusion h
    | some r' =>
      rw [hl] at h
      injection h with h
      subst h
      simp at hmem
  | Goto bb =>
    injection h with h; subst h; simp at hmem
  | SwitchInt discr values tbs obb =>
    injection h with h; subst h; simp at hmem
  | Unreachable =>
    injection h with h; subst h; simp at hmem
  | Drop l tb =>
    injection h with h; subst h; simp at hmem
  | DropAndReplace l tb v =>
    injection h with h; subst h; simp at hmem
  | Assert cond expected tb =>
    injection h with h; subst h; simp at hmem
  | Unimplemented s =>
    injection h with h; subst h; simp at hmem

/-- A guard in the output of one loop iteration either was already present
or carries, verbatim, the discriminant/condition place of the processed
block's terminator. -/
theorem processLoc_guard (sir : String → Option Body) (st : LoopState)
    (loc : SirLoc) (peeked : Option SirLoc) (st' : LoopState)
    (h : processLoc sir st loc peeked = .ok st') (g : Guard)
    (hmem : TirOp.Guard g ∈ st'.ops) :
    TirOp.Guard g ∈ st.ops ∨
    ∃ body blk, sir loc.symbol_name = some body ∧
      body.blocks.get? loc.bb_idx = some blk ∧
      rawGuardPlace blk.term = some g.val := by
  unfold processLoc at h
  cases hs : sir loc.symbol_name with
  | none => rw [hs] at h; exact BRes.noConfusion h
  | some body =>
    rw [hs] at h
    cases hblk : body.blocks.get? loc.bb_idx with
    | none => simp only [hblk] at h; exact BRes.noConfusion h
    | some blk =>
      simp only [hblk] at h
      cases hl : lowerStmts (st.rnm.init_acc body.local_decls.length) body blk.stmts with
      | none => simp only [hl] at h; exact BRes.noConfusion h
      | some pr1 =>
        obtain ⟨stmtOps, r1⟩ := pr1
        simp only [hl] at h
        cases hlt : lowerTerm r1 sir body blk.term with
        | none => simp only [hlt] at h; exact BRes.noConfusion h
        | some pr2 =>
          obtain ⟨termOps, r2⟩ := pr2
          simp only [hlt] at h
          cases hg : deriveGuard blk.term peeked with
          | none => simp only [hg] at h; exact BRes.noConfusion h
          | some gopt =>
            simp only [hg] at h
            injection h with h
            subst h
            simp only [List.mem_append] at hmem
            rcases hmem with ((hin | hmap) | hterm) | hguard
            · exact Or.inl hin
            · obtain ⟨s, _, heq⟩ := List.mem_map.mp hmap
              exact TirOp.noConfusion heq
            · exact absurd hterm (lowerTerm_no_guard r1 sir body blk.term
                (termOps, r2) hlt g)
            · cases gopt with
              | none => simp at hguard
              | some gd =>
                simp only [List.mem_singleton] at hguard
                injection hguard with hguard
                exact Or.inr ⟨body, blk, rfl, hblk,
                  hguard ▸ deriveGuard_val blk.term peeked gd hg⟩

/-- Guards accumulated by the main loop all originate from a processed
location's terminator, place untouched. -/
theorem buildOps_guard (sir : String → Option Body) :
    ∀ (trace : List SirLoc) (st stf : LoopState),
      buildOps sir st trace = .ok stf → ∀ g, TirOp.Guard g ∈ stf.ops →
      TirOp.Guard g ∈ st.ops ∨
      ∃ loc, loc ∈ trace ∧ ∃ body blk, sir loc.symbol_name = some body ∧
        body.blocks.get? loc.bb_idx = some blk ∧
        rawGuardPlace blk.term = some g.val := by
  intro trace
  induction trace with
  | nil =>
    intro st stf h g hm
    simp only [buildOps] at h
    injection h with h
    subst h
    exact Or.inl hm
  | cons loc rest ih =>
    intro st stf h g hm
    simp only [buildOps] at h
    cases hp : processLoc sir st loc rest.head? with
    | err e => rw [hp] at h; exact BRes.noConfusion h
    | panicked => rw [hp] at h; exact BRes.noConfusion h
    | ok st1 =>
      rw [hp] at h
      rcases ih st1 stf h g hm with hin | ⟨loc', hl', rest'⟩
      · rcases processLoc_guard sir st loc rest.head? st1 hp g hin with h1 | h2
        · exact Or.inl h1
        · exact Or.inr ⟨loc, by simp, h2⟩
      · exact Or.inr ⟨loc', by simp [hl'], rest'⟩

/-- C9: every guard in a completed trace carries as its checked place the
discriminant/condition place cloned verbatim from the SIR terminator of
one of the visited blocks — no alpha-renaming offset and no local-0
substitution is applied to a guard's place. -/
theorem guard_place_verbatim (sir : String → Option Body)
    (trace : List SirLoc) (t : TirTrace)
    (h : TirTrace.new sir trace = .ok t) :
    ∀ g, TirOp.Guard g ∈ t.ops →
      ∃ loc, loc ∈ trace ∧ ∃ body blk, sir loc.symbol_name = some body ∧
        body.blocks.get? loc.bb_idx = some blk ∧
        rawGuardPlace blk.term = some g.val := by
  intro g hm
  unfold TirTrace.new at h
  split at h
  next e heq => exact BRes.noConfusion h
  next heq => exact BRes.noConfusion h
  next st heq =>
    split at h
    next => exact BRes.noConfusion h
    next ops' htrim =>
      injection h with h
      subst h
      obtain ⟨x, a, b, c, pf, pa, ra, s, args, dst, off, _, hshape⟩ :=
        trimOps_shape_mp st.ops ops' htrim
      have hin : TirOp.Guard g ∈ st.ops := by
        rw [hshape]
        exact List.mem_cons_of_mem _ (List.mem_append_left _ hm)
      rcases buildOps_guard sir trace _ st heq g hin with h0 | hloc
      · simp at h0
      · exact hloc

/-- The traced body of the C9 witness: a guarded switch followed by the
stop pattern. -/
def bodyM9 : Body :=
  { symbol_name := "m9",
    blocks :=
      [{ stmts := [.StorageDead ⟨2⟩],
         term := .SwitchInt ⟨⟨1⟩, []⟩ [⟨0, 5⟩] [1] 2 },
       { stmts := [.StorageLive ⟨3⟩, .StorageLive ⟨4⟩, .StorageLive ⟨5⟩,
                   .Assign ⟨⟨6⟩, []⟩ (.Use (.Constant (.Bool false))),
                   .Assign ⟨⟨7⟩, []⟩ (.Use (.Constant (.Bool true)))],
         term := .Call (.Fn "stop_tracing") [] (some (⟨⟨8⟩, []⟩, 2)) }],
    flags := 0, trace_inputs_local := some ⟨1⟩,
    local_decls := [⟨(0, 0)⟩, ⟨(0, 1)⟩, ⟨(0, 2)⟩, ⟨(0, 3)⟩, ⟨(0, 4)⟩,
                    ⟨(0, 5)⟩, ⟨(0, 6)⟩, ⟨(0, 7)⟩, ⟨(0, 8)⟩] }

/-- The trace-stop body of the C9 witness. -/
def bodyStop9 : Body :=
  { symbol_name := "stop_tracing", blocks := [], flags := 0,
    trace_inputs_local := none, local_decls := [] }

/-- The registry of the C9 witness. -/
def sir9 : String → Option Body := fun s =>
  if s = "m9" then some bodyM9
  else if s = "stop_tracing" then some bodyStop9 else none

/-- The location sequence of the C9 witness. -/
def trace9 : List SirLoc := [⟨"m9", 0⟩, ⟨"m9", 1⟩]

/-- The trace the C9 witness lowers to: one guard survives trimming. -/
def resT9 : TirTrace :=
  { ops := [.Guard { val := ⟨⟨1⟩, []⟩, kind := .Integer 5 }],
    trace_inputs_local := some ⟨1⟩,
    local_decls := [(⟨8⟩, ⟨(0, 8)⟩), (⟨7⟩, ⟨(0, 7)⟩), (⟨6⟩, ⟨(0, 6)⟩),
                    (⟨5⟩, ⟨(0, 5)⟩), (⟨4⟩, ⟨(0, 4)⟩), (⟨3⟩, ⟨(0, 3)⟩),
                    (⟨2⟩, ⟨(0, 2)⟩)] }

/-- Witness for C9: the surviving guard of the concrete trace carries the
switch discriminant `$1` verbatim. -/
theorem guard_place_verbatim_witness :
    ∃ loc, loc ∈ trace9 ∧ ∃ body blk, sir9 loc.symbol_name = some body ∧
      body.blocks.get? loc.bb_idx = some blk ∧
      rawGuardPlace blk.term = some (⟨⟨1⟩, []⟩ : Place) := by
  exact guard_place_verbatim sir9 trace9 resT9 (by decide)
    { val := ⟨⟨1⟩, []⟩, kind := .Integer 5 } (by decide)

/-! ### C8: the local declarations of a completed trace -/

/-- The locals an operand references. -/
def operandLocals : Operand → List Local
  | .Place p => [p.«local»]
  | .Constant _ => []

/-- The locals an rvalue references. -/
def rvalueLocals : Rvalue → List Local
  | .Use op => operandLocals op
  | .BinaryOp _ o1 o2 => operandLocals o1 ++ operandLocals o2
  | .CheckedBinaryOp _ o1 o2 => operandLocals o1 ++ operandLocals o2
  | .Ref p => [p.«local»]
  | .Unimplemented _ => []

/-- The locals a TIR statement references (defined or used), following
`Statement::{maybe_defined_locals, used_locals}` of
`ykpack/src/types.rs`, with the local of a storage marker also counted as
referenced. -/
def referencedLocals : Statement → List Local
  | .Nop => []
  | .Assign p rv => p.«local» :: rvalueLocals rv
  | .Enter _ args _ start_idx =>
      (List.range args.length).map (fun i => ⟨start_idx + i + 1⟩)
  | .Leave => []
  | .StorageLive l => [l]
  | .StorageDead l => [l]
  | .Call _ args dest =>
      (match dest with | some d => [d.«local»] | none => []) ++
        (args.map operandLocals).flatten
  | .Unimplemented _ => []

/-- A key of the used-locals table survives any insertion. -/
theorem keyIn_insert (m : List (Local × LocalDecl)) (l l' : Local)
    (d : LocalDecl) (h : keyIn l m = true) :
    keyIn l (insertDecl m l' d) = true := by
  unfold keyIn insertDecl
  unfold keyIn at h
  simp only [List.any_eq_true, decide_eq_true_eq] at h ⊢
  obtain ⟨p, hp, he⟩ := h
  by_cases hc : l' = l
  · exact ⟨(l', d), List.mem_cons_self _ _, hc⟩
  · refine ⟨p, List.mem_cons_of_mem _ (List.mem_filter.mpr ⟨hp, ?_⟩), he⟩
    simp only [decide_eq_true_eq]
    rw [he]
    exact fun h' => hc h'.symm

/-- The inserted key is in the table. -/
theorem keyIn_insert_self (m : List (Local × LocalDecl)) (l : Local)
    (d : LocalDecl) : keyIn l (insertDecl m l d) = true := by
  unfold keyIn insertDecl
  simp

/-- The statement-level renaming steps leave the scope state (return
stack, offset) untouched and only grow the key set of the used-locals
table. -/
def RExt (r r' : VarRenamer) : Prop :=
  r'.returns = r.returns ∧ r'.offset = r.offset ∧
  ∀ l, keyIn l r.used_decls = true → keyIn l r'.used_decls = true

/-- Reflexivity of `RExt`. -/
theorem RExt.rfl' (r : VarRenamer) : RExt r r :=
  ⟨rfl, rfl, fun _ h => h⟩

/-- Transitivity of `RExt`. -/
theorem RExt.trans' {r1 r2 r3 : VarRenamer} (h1 : RExt r1 r2)
    (h2 : RExt r2 r3) : RExt r1 r3 :=
  ⟨h2.1.trans h1.1, h2.2.1.trans h1.2.1, fun l h => h2.2.2 l (h1.2.2 l h)⟩

/-- Every place on the return stack has its local keyed. -/
def retInv (r : VarRenamer) : Prop :=
  ∀ p ∈ r.returns, keyIn p.«local» r.used_decls = true

/-- The return-stack invariant transports along `RExt`. -/
theorem retInv_of_RExt {r r' : VarRenamer} (h : RExt r r') (hi : retInv r) :
    retInv r' := by
  intro p hp
  rw [h.1] at hp
  exact h.2.2 _ (hi p hp)

/-- `rename_local` grows the table and keys its result. -/
theorem rename_local_spec (r : VarRenamer) (l : Local) (body : Body)
    (pr : Local × VarRenamer) (h : r.rename_local l body = some pr) :
    RExt r pr.2 ∧ keyIn pr.1 pr.2.used_decls = true := by
  unfold VarRenamer.rename_local at h
  cases hd : body.local_decls.get? l.idx with
  | none => rw [hd] at h; exact Option.noConfusion h
  | some d =>
    rw [hd] at h
    injection h with h
    subst h
    refine ⟨⟨rfl, rfl, ?_⟩, ?_⟩
    · intro l0 h0
      exact keyIn_insert _ _ _ _ h0
    · exact keyIn_insert_self _ _ _

/-- `rename_place` grows the table and, when the return stack is keyed,
keys its result's local. -/
theorem rename_place_spec (r : VarRenamer) (p : Place) (body : Body)
    (pr : Place × VarRenamer) (h : r.rename_place p body = some pr) :
    RExt r pr.2 ∧ (retInv r → keyIn pr.1.«local» pr.2.used_decls = true) := by
  unfold VarRenamer.rename_place at h
  split at h
  · cases hr : r.returns with
    | nil => rw [hr] at h; exact Option.noConfusion h
    | cons v tl =>
      rw [hr] at h
      injection h with h
      subst h
      exact ⟨RExt.rfl' r, fun hi => hi v (by rw [hr]; exact List.mem_cons_self v tl)⟩
  · cases hl : r.rename_local p.«local» body with
    | none => rw [hl] at h; exact Option.noConfusion h
    | some pr1 =>
      obtain ⟨nl, r1⟩ := pr1
      rw [hl] at h
      injection h with h
      subst h
      obtain ⟨hext, hkey⟩ := rename_local_spec r p.«local» body (nl, r1) hl
      exact ⟨hext, fun _ => hkey⟩

/-- `rename_operand` grows the table and keys the result's locals. -/
theorem rename_operand_spec (r : VarRenamer) (o : Operand) (body : Body)
    (pr : Operand × VarRenamer) (h : r.rename_operand o body = some pr) :
    RExt r pr.2 ∧ (retInv r →
      ∀ l ∈ operandLocals pr.1, keyIn l pr.2.used_decls = true) := by
  cases o with
  | Place p =>
    cases hp : r.rename_place p body with
    | none => simp only [VarRenamer.rename_operand, hp] at h; exact Option.noConfusion h
    | some pr1 =>
      obtain ⟨np, r1⟩ := pr1
      simp only [VarRenamer.rename_operand, hp] at h
      injection h with h
      subst h
      obtain ⟨hext, hkey⟩ := rename_place_spec r p body (np, r1) hp
      refine ⟨hext, fun hi l hl => ?_⟩
      simp only [operandLocals, List.mem_singleton] at hl
      exact hl ▸ hkey hi
  | Constant c =>
    simp only [VarRenamer.rename_operand] at h
    injection h with h
    subst h
    refine ⟨RExt.rfl' r, fun _ l hl => ?_⟩
    simp [operandLocals] at hl

/-- `rename_rvalue` grows the table and keys the result's locals. -/
theorem rename_rvalue_spec (r : VarRenamer) (rv : Rvalue) (body : Body)
    (pr : Rvalue × VarRenamer) (h : r.rename_rvalue rv body = some pr) :
    RExt r pr.2 ∧ (retInv r →
      ∀ l ∈ rvalueLocals pr.1, keyIn l pr.2.used_decls = true) := by
  cases rv with
  | Use op =>
    cases ho : r.rename_operand op body with
    | none => simp only [VarRenamer.rename_rvalue, ho] at h; exact Option.noConfusion h
    | some pr1 =>
      obtain ⟨nop, r1⟩ := pr1
      simp only [VarRenamer.rename_rvalue, ho] at h
      injection h with h
      subst h
      obtain ⟨hext, hkey⟩ := rename_operand_spec r op body (nop, r1) ho
      exact ⟨hext, fun hi l hl => hkey hi l hl⟩
  | BinaryOp bop o1 o2 =>
    cases h1 : r.rename_operand o1 body with
    | none => simp only [VarRenamer.rename_rvalue, h1] at h; exact Option.noConfusion h
    | some pr1 =>
      obtain ⟨n1, r1⟩ := pr1
      simp only [VarRenamer.rename_rvalue, h1] at h
      cases h2 : r1.rename_operand o2 body with
      | none => simp only [h2] at h; exact Option.noConfusion h
      | some pr2 =>
        obtain ⟨n2, r2⟩ := pr2
        simp only [h2] at h
        injection h with h
        subst h
        obtain ⟨he1, hk1⟩ := rename_operand_spec r o1 body (n1, r1) h1
        obtain ⟨he2, hk2⟩ := rename_operand_spec r1 o2 body (n2, r2) h2
        refine ⟨RExt.trans' he1 he2, fun hi l hl => ?_⟩
        simp only [rvalueLocals, List.mem_append] at hl
        rcases hl with hl | hl
        · exact he2.2.2 l (hk1 hi l hl)
        · exact hk2 (retInv_of_RExt he1 hi) l hl
  | CheckedBinaryOp bop o1 o2 =>
    cases h1 : r.rename_operand o1 body with
    | none => simp only [VarRenamer.rename_rvalue, h1] at h; exact Option.noConfusion h
    | some pr1 =>
      obtain ⟨n1, r1⟩ := pr1
      simp only [VarRenamer.rename_rvalue, h1] at h
      cases h2 : r1.rename_operand o2 body with
      | none => simp only [h2] at h; exact Option.noConfusion h
      | some pr2 =>
        obtain ⟨n2, r2⟩ := pr2
        simp only [h2] at h
        injection h with h
        subst h
        obtain ⟨he1, hk1⟩ := rename_operand_spec r o1 body (n1, r1) h1
        obtain ⟨he2, hk2⟩ := rename_operand_spec r1 o2 body (n2, r2) h2
        refine ⟨RExt.trans' he1 he2, fun hi l hl => ?_⟩
        simp only [rvalueLocals, List.mem_append] at hl
        rcases hl with hl | hl
        · exact he2.2.2 l (hk1 hi l hl)
        · exact hk2 (retInv_of_RExt he1 hi) l hl
  | Ref p =>
    cases hp : r.rename_place p body with
    | none => simp only [VarRenamer.rename_rvalue, hp] at h; exact Option.noConfusion h
    | some pr1 =>
      obtain ⟨np, r1⟩ := pr1
      simp only [VarRenamer.rename_rvalue, hp] at h
      injection h with h
      subst h
      obtain ⟨hext, hkey⟩ := rename_place_spec r p body (np, r1) hp
      refine ⟨hext, fun hi l hl => ?_⟩
      simp only [rvalueLocals, List.mem_singleton] at hl
      exact hl ▸ hkey hi
  | Unimplemented s =>
    simp only [VarRenamer.rename_rvalue] at h
    injection h with h
    subst h
    refine ⟨RExt.rfl' r, fun _ l hl => ?_⟩
    simp [rvalueLocals] at hl

/-- `rename_args` grows the table and keys every renamed argument's
locals. -/
theorem rename_args_spec (body : Body) :
    ∀ (args : List Operand) (r : VarRenamer) (pr : List Operand × VarRenamer),
      r.rename_args args body = some pr →
      RExt r pr.2 ∧ (retInv r →
        ∀ a ∈ pr.1, ∀ l ∈ operandLocals a, keyIn l pr.2.used_decls = true) := by
  intro args
  induction args with
  | nil =>
    intro r pr h
    simp only [VarRenamer.rename_args] at h
    injection h with h
    subst h
    exact ⟨RExt.rfl' r, fun _ a ha => by simp at ha⟩
  | cons a rest ih =>
    intro r pr h
    cases ho : r.rename_operand a body with
    | none => simp only [VarRenamer.rename_args, ho] at h; exact Option.noConfusion h
    | some pr1 =>
      obtain ⟨na, r1⟩ := pr1
      simp only [VarRenamer.rename_args, ho] at h
      cases hr : r1.rename_args rest body with
      | none => simp only [hr] at h; exact Option.noConfusion h
      | some pr2 =>
        obtain ⟨nrest, r2⟩ := pr2
        simp only [hr] at h
        injection h with h
        subst h
        obtain ⟨he1, hk1⟩ := rename_operand_spec r a body (na, r1) ho
        obtain ⟨he2, hk2⟩ := ih r1 (nrest, r2) hr
        refine ⟨RExt.trans' he1 he2, fun hi a' ha' l hl => ?_⟩
        simp only [List.mem_cons] at ha'
        rcases ha' with rfl | ha'
        · exact he2.2.2 l (hk1 hi l hl)
        · exact hk2 (retInv_of_RExt he1 hi) a' ha' l hl

/-- Lowering one statement grows the table and keys every local the
lowered statement references. -/
theorem lowerStmt_spec (r : VarRenamer) (body : Body) (stmt : Statement)
    (pr : Statement × VarRenamer) (h : lowerStmt r body stmt = some pr) :
    RExt r pr.2 ∧ (retInv r →
      ∀ l ∈ referencedLocals pr.1, keyIn l pr.2.used_decls = true) := by
  cases stmt with
  | StorageLive l0 =>
    cases hl : r.rename_local l0 body with
    | none => simp only [lowerStmt, hl] at h; exact Option.noConfusion h
    | some pr1 =>
      obtain ⟨nl, r1⟩ := pr1
      simp only [lowerStmt, hl] at h
      injection h with h
      subst h
      obtain ⟨hext, hkey⟩ := rename_local_spec r l0 body (nl, r1) hl
      refine ⟨hext, fun _ l hl' => ?_⟩
      simp only [referencedLocals, List.mem_singleton] at hl'
      exact hl' ▸ hkey
  | StorageDead l0 =>
    cases hl : r.rename_local l0 body with
    | none => simp only [lowerStmt, hl] at h; exact Option.noConfusion h
    | some pr1 =>
      obtain ⟨nl, r1⟩ := pr1
      simp only [lowerStmt, hl] at h
      injection h with h
      subst h
      obtain ⟨hext, hkey⟩ := rename_local_spec r l0 body (nl, r1) hl
      refine ⟨hext, fun _ l hl' => ?_⟩
      simp only [referencedLocals, List.mem_singleton] at hl'
      exact hl' ▸ hkey
  | Assign p rv =>
    cases hp : r.rename_place p body with
    | none => simp only [lowerStmt, hp] at h; exact Option.noConfusion h
    | some pr1 =>
      obtain ⟨np, r1⟩ := pr1
      simp only [lowerStmt, hp] at h
      cases hrv : r1.rename_rvalue rv body with
      | none => simp only [hrv] at h; exact Option.noConfusion h
      | some pr2 =>
        obtain ⟨nrv, r2⟩ := pr2
        simp only [hrv] at h
        injection h with h
        subst h
        obtain ⟨he1, hk1⟩ := rename_place_spec r p body (np, r1) hp
        obtain ⟨he2, hk2⟩ := rename_rvalue_spec r1 rv body (nrv, r2) hrv
        refine ⟨RExt.trans' he1 he2, fun hi l hl' => ?_⟩
        simp only [referencedLocals, List.mem_cons] at hl'
        rcases hl' with rfl | hl'
        · exact he2.2.2 _ (hk1 hi)
        · exact hk2 (retInv_of_RExt he1 hi) l hl'
  | Nop =>
    simp only [lowerStmt] at h
    injection h with h
    subst h
    exact ⟨RExt.rfl' r, fun _ l hl' => by simp [referencedLocals] at hl'⟩
  | Unimplemented s =>
    simp only [lowerStmt] at h
    injection h with h
    subst h
    exact ⟨RExt.rfl' r, fun _ l hl' => by simp [referencedLocals] at hl'⟩
  | Call op args dest => simp [lowerStmt] at h
  | Enter op args dest off => simp [lowerStmt] at h
  | Leave => simp [lowerStmt] at h

/-- Lowering a statement list grows the table and keys every referenced
local of every lowered statement. -/
theorem lowerStmts_spec (body : Body) :
    ∀ (stmts : List Statement) (r : VarRenamer)
      (pr : List Statement × VarRenamer),
      lowerStmts r body stmts = some pr →
      RExt r pr.2 ∧ (retInv r →
        ∀ s ∈ pr.1, ∀ l ∈ referencedLocals s, keyIn l pr.2.used_decls = true) := by
  intro stmts
  induction stmts with
  | nil =>
    intro r pr h
    simp only [lowerStmts] at h
    injection h with h
    subst h
    exact ⟨RExt.rfl' r, fun _ s hs => by simp at hs⟩
  | cons s0 rest ih =>
    intro r pr h
    cases hs0 : lowerStmt r body s0 with
    | none => simp only [lowerStmts, hs0] at h; exact Option.noConfusion h
    | some pr1 =>
      obtain ⟨s0', r1⟩ := pr1
      simp only [lowerStmts, hs0] at h
      cases hrest : lowerStmts r1 body rest with
      | none => simp only [hrest] at h; exact Option.noConfusion h
      | some pr2 =>
        obtain ⟨rest', r2⟩ := pr2
        simp only [hrest] at h
        injection h with h
        subst h
        obtain ⟨he1, hk1⟩ := lowerStmt_spec r body s0 (s0', r1) hs0
        obtain ⟨he2, hk2⟩ := ih r1 (rest', r2) hrest
        refine ⟨RExt.trans' he1 he2, fun hi s hs l hl => ?_⟩
        simp only [List.mem_cons] at hs
        rcases hs with rfl | hs
        · exact he2.2.2 l (hk1 hi l hl)
        · exact hk2 (retInv_of_RExt he1 hi) s hs l hl

/-- The argument-declaration loop preserves the scope state, grows the
table, and keys `offset + i + 1` for every argument index `i`. -/
theorem declArgs_spec (callbody : Body) :
    ∀ (n : Nat) (r r' : VarRenamer), declArgs r callbody n = some r' →
      RExt r r' ∧ ∀ i, i < n →
        keyIn ⟨r.offset + i + 1⟩ r'.used_decls = true := by
  intro n
  induction n with
  | zero =>
    intro r r' h
    simp only [declArgs] at h
    injection h with h
    subst h
    exact ⟨RExt.rfl' r, fun i hi => absurd hi (by omega)⟩
  | succ n ih =>
    intro r r' h
    cases hd : declArgs r callbody n with
    | none => simp only [declArgs, hd] at h; exact Option.noConfusion h
    | some r0 =>
      simp only [declArgs, hd] at h
      cases hg : callbody.local_decls.get? (n + 1) with
      | none => simp only [hg] at h; exact Option.noConfusion h
      | some d =>
        simp only [hg] at h
        injection h with h
        subst h
        obtain ⟨he, hk⟩ := ih r r0 hd
        have hoff : r0.offset = r.offset := he.2.1
        refine ⟨⟨he.1, hoff, fun l hl => keyIn_insert _ _ _ _ (he.2.2 l hl)⟩,
          fun i hi => ?_⟩
        rcases Nat.lt_succ_iff_lt_or_eq.mp hi with hi' | rfl
        · exact keyIn_insert _ _ _ _ (hk i hi')
        · rw [← hoff]
          exact keyIn_insert_self _ _ _

/-- `init_acc` leaves everything but the accumulator unchanged. -/
theorem init_acc_spec (r : VarRenamer) (n : Nat) :
    (r.init_acc n).used_decls = r.used_decls ∧
    (r.init_acc n).returns = r.returns ∧
    (r.init_acc n).offset = r.offset := by
  unfold VarRenamer.init_acc
  split <;> exact ⟨rfl, rfl, rfl⟩

/-- `enter` pushes the destination and keeps the table. -/
theorem enter_spec (r : VarRenamer) (k : Nat) (dest : Place)
    (r' : VarRenamer) (h : r.enter k dest = some r') :
    r'.used_decls = r.used_decls ∧ r'.returns = dest :: r.returns := by
  unfold VarRenamer.enter at h
  cases ha : r.acc with
  | none => rw [ha] at h; exact Option.noConfusion h
  | some a =>
    rw [ha] at h
    injection h with h
    subst h
    exact ⟨rfl, rfl⟩

/-- `leave` pops the return stack and keeps the table. -/
theorem leave_spec (r r' : VarRenamer) (h : r.leave = some r') :
    r'.used_decls = r.used_decls ∧ r'.returns = r.returns.tail := by
  unfold VarRenamer.leave at h
  cases hs : r.stack with
  | nil => rw [hs] at h; exact Option.noConfusion h
  | cons x rest =>
    rw [hs] at h
    cases rest with
    | nil => exact Option.noConfusion h
    | cons v tl =>
      injection h with h
      subst h
      exact ⟨rfl, rfl⟩

/-- The terminator handling grows the table, preserves the return-stack
invariant, and keys every referenced local of the ops it emits. -/
theorem lowerTerm_spec (r : VarRenamer) (sir : String → Option Body)
    (body : Body) (term : Terminator) (pr : List TirOp × VarRenamer)
    (h : lowerTerm r sir body term = some pr) :
    (∀ l, keyIn l r.used_decls = true → keyIn l pr.2.used_decls = true) ∧
    (retInv r → retInv pr.2) ∧
    (retInv r → ∀ op ∈ pr.1, ∀ s, op = TirOp.Statement s →
       ∀ l ∈ referencedLocals s, keyIn l pr.2.used_decls = true) := by
  cases term with
  | Call op args dest =>
    cases dest with
    | none => simp [lowerTerm] at h
    | some dpr =>
      obtain ⟨retp, bb⟩ := dpr
      cases hrp : r.rename_place retp body with
      | none => simp only [lowerTerm, hrp] at h; exact Option.noConfusion h
      | some pr1 =>
        obtain ⟨ret_val, r1⟩ := pr1
        simp only [lowerTerm, hrp] at h
        obtain ⟨he1, hk1⟩ := rename_place_spec r retp body (ret_val, r1) hrp
        cases op with
        | Unknown => exact Option.noConfusion h
        | Fn sym =>
          cases hra : r1.rename_args args body with
          | none => simp only [hra] at h; exact Option.noConfusion h
          | some pr2 =>
            obtain ⟨newargs, r2⟩ := pr2
            simp only [hra] at h
            obtain ⟨he2, hk2⟩ := rename_args_spec body args r1 (newargs, r2) hra
            cases hs : sir sym with
            | some callbody =>
              simp only [hs] at h
              cases he : r2.enter callbody.local_decls.length ret_val with
              | none => simp only [he] at h; exact Option.noConfusion h
              | some r3 =>
                simp only [he] at h
                obtain ⟨hu3, hr3⟩ := enter_spec r2 _ ret_val r3 he
                cases hd : declArgs r3 callbody newargs.length with
                | none => simp only [hd] at h; exact Option.noConfusion h
                | some r4 =>
                  simp only [hd] at h
                  injection h with h
                  subst h
                  obtain ⟨he4, hk4⟩ := declArgs_spec callbody newargs.length r3 r4 hd
                  have hgrow : ∀ l, keyIn l r.used_decls = true →
                      keyIn l r4.used_decls = true := by
                    intro l hl
                    exact he4.2.2 l (hu3 ▸ he2.2.2 l (he1.2.2 l hl))
                  have hretkey : keyIn ret_val.«local» r2.used_decls = true →
                      keyIn ret_val.«local» r4.used_decls = true := by
                    intro hk
                    exact he4.2.2 _ (hu3 ▸ hk)
                  refine ⟨hgrow, ?_, ?_⟩
                  · intro hi p hp
                    rw [he4.1, hr3] at hp
                    rcases List.mem_cons.mp hp with rfl | hp
                    · exact hretkey (he2.2.2 _ (hk1 hi))
                    · rw [he2.1, he1.1] at hp
                      exact he4.2.2 _ (hu3 ▸ he2.2.2 _ (he1.2.2 _ (hi p hp)))
                  · intro hi opn hop s hop' l hl
                    simp only [List.mem_singleton] at hop
                    subst hop
                    injection hop' with hs'
                    subst hs'
                    simp only [referencedLocals, List.mem_map] at hl
                    obtain ⟨i, hi', rfl⟩ := hl
                    simp only [List.mem_range] at hi'
                    have := hk4 i hi'
                    rwa [he4.2.1]
            | none =>
              simp only [hs] at h
              injection h with h
              subst h
              refine ⟨fun l hl => he2.2.2 l (he1.2.2 l hl), ?_, ?_⟩
              · intro hi
                exact retInv_of_RExt (RExt.trans' he1 he2) hi
              · intro hi opn hop s hop' l hl
                simp only [List.mem_singleton] at hop
                subst hop
                injection hop' with hs'
                subst hs'
                simp only [referencedLocals, List.mem_append] at hl
                rcases hl with hl | hl
                · simp only [List.mem_singleton] at hl
                  subst hl
                  exact he2.2.2 _ (hk1 hi)
                · simp only [List.mem_flatten, List.mem_map] at hl
                  obtain ⟨ls, ⟨a, ha, rfl⟩, hla⟩ := hl
                  exact hk2 (retInv_of_RExt he1 hi) a ha _ hla
  | Return =>
    cases hl : r.leave with
    | none => simp only [lowerTerm, hl] at h; exact Option.noConfusion h
    | some r' =>
      simp only [lowerTerm, hl] at h
      injection h with h
      subst h
      obtain ⟨hu, hr⟩ := leave_spec r r' hl
      refine ⟨fun l hl' => hu ▸ hl', ?_, ?_⟩
      · intro hi p hp
        rw [hr] at hp
        rw [hu]
        exact hi p (List.mem_of_mem_tail hp)
      · intro hi opn hop s hop' l hl'
        simp only [List.mem_singleton] at hop
        subst hop
        injection hop' with hs'
        subst hs'
        simp [referencedLocals] at hl'
  | Goto bb =>
    simp only [lowerTerm] at h
    injection h with h
    subst h
    exact ⟨fun _ hl => hl, fun hi => hi, fun _ opn hop => by simp at hop⟩
  | SwitchInt discr values tbs obb =>
    simp only [lowerTerm] at h
    injection h with h
    subst h
    exact ⟨fun _ hl => hl, fun hi => hi, fun _ opn hop => by simp at hop⟩
  | Unreachable =>
    simp only [lowerTerm] at h
    injection h with h
    subst h
    exact ⟨fun _ hl => hl, fun hi => hi, fun _ opn hop => by simp at hop⟩
  | Drop l0 tb =>
    simp only [lowerTerm] at h
    injection h with h
    subst h
    exact ⟨fun _ hl => hl, fun hi => hi, fun _ opn hop => by simp at hop⟩
  | DropAndReplace l0 tb v =>
    simp only [lowerTerm] at h
    injection h with h
    subst h
    exact ⟨fun _ hl => hl, fun hi => hi, fun _ opn hop => by simp at hop⟩
  | Assert cond expected tb =>
    simp only [lowerTerm] at h
    injection h with h
    subst h
    exact ⟨fun _ hl => hl, fun hi => hi, fun _ opn hop => by simp at hop⟩
  | Unimplemented s =>
    simp only [lowerTerm] at h
    injection h with h
    subst h
    exact ⟨fun _ hl => hl, fun hi => hi, fun _ opn hop => by simp at hop⟩

/-- The combined loop invariant of C8: every place on the return stack is
keyed and every emitted statement has its referenced locals keyed. -/
def declsInv (st : LoopState) : Prop :=
  retInv st.rnm ∧
  ∀ op ∈ st.ops, ∀ s, op = TirOp.Statement s →
    ∀ l ∈ referencedLocals s, keyIn l st.rnm.used_decls = true

/-- One loop iteration preserves the C8 invariant. -/
theorem processLoc_spec (sir : String → Option Body) (st : LoopState)
    (loc : SirLoc) (peeked : Option SirLoc) (st' : LoopState)
    (h : processLoc sir st loc peeked = .ok st') (hinv : declsInv st) :
    declsInv st' := by
  unfold processLoc at h
  cases hs : sir loc.symbol_name with
  | none => rw [hs] at h; exact BRes.noConfusion h
  | some body =>
    rw [hs] at h
    cases hblk : body.blocks.get? loc.bb_idx with
    | none => simp only [hblk] at h; exact BRes.noConfusion h
    | some blk =>
      simp only [hblk] at h
      cases hl : lowerStmts (st.rnm.init_acc body.local_decls.length) body blk.stmts with
      | none => simp only [hl] at h; exact BRes.noConfusion h
      | some pr1 =>
        obtain ⟨stmtOps, r1⟩ := pr1
        simp only [hl] at h
        cases hlt : lowerTerm r1 sir body blk.term with
        | none => simp only [hlt] at h; exact BRes.noConfusion h
        | some pr2 =>
          obtain ⟨termOps, r2⟩ := pr2
          simp only [hlt] at h
          cases hg : deriveGuard blk.term peeked with
          | none => simp only [hg] at h; exact BRes.noConfusion h
          | some gopt =>
            simp only [hg] at h
            injection h with h
            subst h
            obtain ⟨hretI, hopsI⟩ := hinv
            obtain ⟨hi0u, hi0r, hi0o⟩ := init_acc_spec st.rnm body.local_decls.length
            have hret0 : retInv (st.rnm.init_acc body.local_decls.length) := by
              intro p hp
              rw [hi0r] at hp
              rw [hi0u]
              exact hretI p hp
            obtain ⟨he1, hk1⟩ := lowerStmts_spec body blk.stmts _ (stmtOps, r1) hl
            obtain ⟨ht1, ht2, ht3⟩ := lowerTerm_spec r1 sir body blk.term (termOps, r2) hlt
            have hret1 : retInv r1 := retInv_of_RExt he1 hret0
            have hret2 : retInv r2 := ht2 hret1
            have hlift : ∀ l, keyIn l st.rnm.used_decls = true →
                keyIn l r2.used_decls = true := by
              intro l hl'
              exact ht1 l (he1.2.2 l (hi0u ▸ hl'))
            refine ⟨hret2, ?_⟩
            intro op hop s hop' l hl'
            simp only [List.mem_append] at hop
            rcases hop with ((hop | hop) | hop) | hop
            · exact hlift l (hopsI op hop s hop' l hl')
            · obtain ⟨s0, hs0, heq⟩ := List.mem_map.mp hop
              rw [hop'] at heq
              injection heq with heq
              subst heq
              exact ht1 l (hk1 hret0 s0 hs0 l hl')
            · exact ht3 hret1 op hop s hop' l hl'
            · cases gopt with
              | none => simp at hop
              | some gd =>
                simp only [List.mem_singleton] at hop
                rw [hop'] at hop
                exact TirOp.noConfusion hop

/-- The main loop preserves the C8 invariant. -/
theorem buildOps_spec (sir : String → Option Body) :
    ∀ (trace : List SirLoc) (st stf : LoopState),
      buildOps sir st trace = .ok stf → declsInv st → declsInv stf := by
  intro trace
  induction trace with
  | nil =>
    intro st stf h hi
    simp only [buildOps] at h
    injection h with h
    subst h
    exact hi
  | cons loc rest ih =>
    intro st stf h hi
    simp only [buildOps] at h
    cases hp : processLoc sir st loc rest.head? with
    | err e => rw [hp] at h; exact BRes.noConfusion h
    | panicked => rw [hp] at h; exact BRes.noConfusion h
    | ok st1 =>
      rw [hp] at h
      exact ih st1 stf h (processLoc_spec sir st loc rest.head? st1 hp hi)

/-- C8 (amended): every renamed local referenced by a statement that
survives in the final (post-trimming) op sequence appears in the trace's
local-declaration map; the map may additionally hold locals recorded while
renaming the trimmed boundary ops. -/
theorem surviving_locals_declared (sir : String → Option Body)
    (trace : List SirLoc) (t : TirTrace)
    (h : TirTrace.new sir trace = .ok t) :
    ∀ op ∈ t.ops, ∀ s, op = TirOp.Statement s →
      ∀ l ∈ referencedLocals s, keyIn l t.local_decls = true := by
  intro op hop s hop' l hl
  unfold TirTrace.new at h
  split at h
  next e heq => exact BRes.noConfusion h
  next heq => exact BRes.noConfusion h
  next st heq =>
    split at h
    next => exact BRes.noConfusion h
    next ops' htrim =>
      injection h with h
      subst h
      have hinv : declsInv st := buildOps_spec sir trace _ st heq
        ⟨fun p hp => by simp [VarRenamer.new] at hp,
         fun op hop => by simp at hop⟩
      obtain ⟨x, a, b, c, pf, pa, ra, s', args, dst, off, _, hshape⟩ :=
        trimOps_shape_mp st.ops ops' htrim
      have hin : op ∈ st.ops := by
        rw [hshape]
        exact List.mem_cons_of_mem _ (List.mem_append_left _ hop)
      exact hinv.2 op hin s hop' l hl

/-- The traced body of the C8 counterexample: everything it contributes is
trimmed away, yet its renamed locals stay recorded. -/
def bodyM8 : Body :=
  { symbol_name := "m8",
    blocks :=
      [{ stmts := [.StorageDead ⟨2⟩, .StorageLive ⟨3⟩, .StorageLive ⟨4⟩,
                   .StorageLive ⟨5⟩,
                   .Assign ⟨⟨6⟩, []⟩ (.Use (.Constant (.Bool false))),
                   .Assign ⟨⟨7⟩, []⟩ (.Use (.Constant (.Bool true)))],
         term := .Call (.Fn "stop_tracing") [] (some (⟨⟨8⟩, []⟩, 1)) }],
    flags := 0, trace_inputs_local := some ⟨1⟩,
    local_decls := [⟨(0, 0)⟩, ⟨(0, 1)⟩, ⟨(0, 2)⟩, ⟨(0, 3)⟩, ⟨(0, 4)⟩,
                    ⟨(0, 5)⟩, ⟨(0, 6)⟩, ⟨(0, 7)⟩, ⟨(0, 8)⟩] }

/-- The trace-stop body of the C8 examples. -/
def bodyStop8 : Body :=
  { symbol_name := "stop_tracing", blocks := [], flags := 0,
    trace_inputs_local := none, local_decls := [] }

/-- The registry of the C8 counterexample. -/
def sir8 : String → Option Body := fun s =>
  if s = "m8" then some bodyM8
  else if s = "stop_tracing" then some bodyStop8 else none

/-- The location sequence of the C8 counterexample. -/
def trace8 : List SirLoc := [⟨"m8", 0⟩]

/-- The trace the C8 counterexample lowers to: no op survives, yet seven
locals are declared. -/
def resT8 : TirTrace :=
  { ops := [],
    trace_inputs_local := some ⟨1⟩,
    local_decls := [(⟨8⟩, ⟨(0, 8)⟩), (⟨7⟩, ⟨(0, 7)⟩), (⟨6⟩, ⟨(0, 6)⟩),
                    (⟨5⟩, ⟨(0, 5)⟩), (⟨4⟩, ⟨(0, 4)⟩), (⟨3⟩, ⟨(0, 3)⟩),
                    (⟨2⟩, ⟨(0, 2)⟩)] }

/-- C8 (counterexample): a completed trace whose op sequence is empty but
whose local-declaration map holds seven locals — locals recorded while
renaming the trimmed boundary ops remain even though no surviving
statement references them. -/
theorem trace_locals_counterexample :
    TirTrace.new sir8 trace8 = .ok resT8 ∧
    resT8.ops = [] ∧ resT8.local_decls ≠ [] := by
  refine ⟨by decide, rfl, by decide⟩

/-- The traced body of the C8 witness: one assignment survives trimming. -/
def bodyM8w : Body :=
  { symbol_name := "m8w",
    blocks :=
      [{ stmts := [.StorageDead ⟨2⟩,
                   .Assign ⟨⟨3⟩, []⟩ (.Use (.Place ⟨⟨4⟩, []⟩)),
                   .StorageLive ⟨5⟩, .StorageLive ⟨6⟩, .StorageLive ⟨7⟩,
                   .Assign ⟨⟨8⟩, []⟩ (.Use (.Constant (.Bool false))),
                   .Assign ⟨⟨9⟩, []⟩ (.Use (.Constant (.Bool true)))],
         term := .Call (.Fn "stop_tracing") [] (some (⟨⟨10⟩, []⟩, 1)) }],
    flags := 0, trace_inputs_local := some ⟨1⟩,
    local_decls := [⟨(0, 0)⟩, ⟨(0, 1)⟩, ⟨(0, 2)⟩, ⟨(0, 3)⟩, ⟨(0, 4)⟩,
                    ⟨(0, 5)⟩, ⟨(0, 6)⟩, ⟨(0, 7)⟩, ⟨(0, 8)⟩, ⟨(0, 9)⟩,
                    ⟨(0, 10)⟩] }

/-- The registry of the C8 witness. -/
def sir8w : String → Option Body := fun s =>
  if s = "m8w" then some bodyM8w
  else if s = "stop_tracing" then some bodyStop8 else none

/-- The location sequence of the C8 witness. -/
def trace8w : List SirLoc := [⟨"m8w", 0⟩]

/-- The trace the C8 witness lowers to. -/
def resT8w : TirTrace :=
  { ops := [.Statement (.Assign ⟨⟨3⟩, []⟩ (.Use (.Place ⟨⟨4⟩, []⟩)))],
    trace_inputs_local := some ⟨1⟩,
    local_decls := [(⟨10⟩, ⟨(0, 10)⟩), (⟨9⟩, ⟨(0, 9)⟩), (⟨8⟩, ⟨(0, 8)⟩),
                    (⟨7⟩, ⟨(0, 7)⟩), (⟨6⟩, ⟨(0, 6)⟩), (⟨5⟩, ⟨(0, 5)⟩),
                    (⟨4⟩, ⟨(0, 4)⟩), (⟨3⟩, ⟨(0, 3)⟩), (⟨2⟩, ⟨(0, 2)⟩)] }

/-- Witness for C8: the local `$4`, used by the surviving assignment, is
declared in the completed trace's map. -/
theorem surviving_locals_declared_witness :
    keyIn ⟨4⟩ resT8w.local_decls = true := by
  exact surviving_locals_declared sir8w trace8w resT8w (by decide)
    (.Statement (.Assign ⟨⟨3⟩, []⟩ (.Use (.Place ⟨⟨4⟩, []⟩)))) (by decide)
    (.Assign ⟨⟨3⟩, []⟩ (.Use (.Place ⟨⟨4⟩, []⟩))) rfl ⟨4⟩ (by decide)

end Yk
